import Mathlib

/-!
# External sort / external reverse (`external_sort.cpp`)

A shallow embedding of the program and a verification of its specification.

Modelling conventions

* The value type is the one `main` instantiates the templates with: `int`, a 32-bit
  two's-complement integer (`CInt`).
* A `std::vector` is a `List`; a byte is a `Nat` below 256; a stream is the list of bytes
  it holds.  The file system is a map from file names to contents.
* `size_t` quantities and the static counter of `tempFilename` are natural numbers:
  memory, file handles and counters are assumed not to run out.  The counter as the source
  declares it, an `int` that overflows, is modelled by `tempFilenameInt`.
* `throw 1` is the `thrown` outcome of `Result`; it carries the state of the object at
  the moment of the throw.
* Loops that the source does not bound (`while (begin_ != end_)`, `while (merger.hasNext())`)
  take a fuel argument counting iterations; `none` means the fuel ran out before the loop
  condition became false.
* `std::sort`, `std::reverse`, `std::make_heap`, `std::pop_heap`, `std::push_heap` are
  library routines; they are modelled by insertion sort, list reversal and the classic
  array binary-heap algorithms (sift up / sift down).
-/

namespace ExtSort

/-! ## Values and the byte codec -/

/-- The C++ type `int`: an integer in the 32-bit two's-complement range. -/
abbrev CInt : Type := { v : Int // -2147483648 ≤ v ∧ v ≤ 2147483647 }

/-- The `int` with the given 32-bit pattern (two's complement). -/
def CInt.ofBits (u : Nat) : CInt :=
  ⟨if u % 4294967296 < 2147483648 then (u % 4294967296 : Nat) else (u % 4294967296 : Nat) - 4294967296,
    by split <;> omega⟩

/-- The 32-bit pattern of an `int`. -/
def CInt.toBits (v : CInt) : Nat := (v.val % 4294967296).toNat

/-- An `int` literal (wrapped into range). -/
def CInt.ofInt (i : Int) : CInt := CInt.ofBits (i % 4294967296).toNat

/-- The constant `sizeof(int)`. -/
def sizeofT : Nat := 4

/-- Object representation of a value: `sizeof(T)` bytes, least significant first. -/
def objectBytes (value : CInt) : List Nat :=
  [value.toBits % 256, value.toBits / 256 % 256, value.toBits / 65536 % 256,
   value.toBits / 16777216 % 256]

/-- Value whose object representation starts with the given bytes; bytes that are missing
count as zero. -/
def fromBytes (bs : List Nat) : CInt :=
  CInt.ofBits (bs.getD 0 0 % 256 + 256 * (bs.getD 1 0 % 256) + 65536 * (bs.getD 2 0 % 256)
    + 16777216 * (bs.getD 3 0 % 256))

/-! ## Streams -/

/-- An output stream: the bytes written so far. -/
abbrev OStream : Type := List Nat

/-- An input stream: the bytes not yet read, and the fail bit. -/
structure IStream where
  data : List Nat
  failbit : Bool
deriving DecidableEq, Repr

/-- Function `std::ostream::write`. -/
def OStream.write (out : OStream) (bytes : List Nat) : OStream := out ++ bytes

/-- Function `std::istream::read(buf, n)`: extracts `n` bytes; when fewer remain it extracts
what is there and sets the fail bit; on a stream that has already failed it extracts nothing.
Returns the extracted bytes and the stream afterwards. -/
def IStream.read (s : IStream) (n : Nat) : List Nat × IStream :=
  if s.failbit then ([], s)
  else if n ≤ s.data.length then (s.data.take n, { data := s.data.drop n, failbit := false })
  else (s.data, { data := [], failbit := true })

/-- Function `serialize`: writes the `sizeof(T)` bytes of the value. -/
def serialize (value : CInt) (out : OStream) : OStream :=
  out.write (objectBytes value)

/-- Function `deserialize`: reads `sizeof(T)` bytes into `result` and returns it.  When the
read fails `result` is indeterminate in C++; here its unread bytes are zero. -/
def deserialize (s : IStream) : CInt × IStream :=
  let r := s.read sizeofT
  (fromBytes r.1, r.2)

/-! ## Outcomes of operations that may throw -/

/-- Outcome of a member function on an object of type `σ` returning `α`: either it returns
`val` leaving the object as `st`, or it executes `throw code` leaving the object as `st`. -/
inductive Result (σ : Type) (α : Type) where
  | ok (val : α) (st : σ)
  | thrown (code : Int) (st : σ)
deriving DecidableEq, Repr

/-- The object after the operation, whether it returned or threw. -/
def Result.state {σ α : Type} : Result σ α → σ
  | .ok _ st => st
  | .thrown _ st => st

/-- Whether the operation threw. -/
def Result.failed {σ α : Type} : Result σ α → Bool
  | .ok _ _ => false
  | .thrown _ _ => true

/-! ## SerializeIterator -/

/-- Class `SerializeIterator`: an output iterator bound to a stream (`stream_`). -/
structure SerializeIterator where
  stream_ : OStream
deriving DecidableEq, Repr

/-- Method `SerializeIterator::operator=`: serializes the value to the stream. -/
def SerializeIterator.assign (it : SerializeIterator) (value : CInt) : SerializeIterator :=
  { stream_ := serialize value it.stream_ }

/-- Function `std::copy(first, last, writer)`: assigns every element through the writer
(`operator*` and `operator++` of the writer do nothing). -/
def std_copy : List CInt → SerializeIterator → SerializeIterator
  | [], writer => writer
  | x :: rest, writer => std_copy rest (writer.assign x)

/-! ## DeserializeIterator -/

/-- Class `DeserializeIterator`: the stream it reads (`stream_`), the last decoded value
(`value_`) and the end flag (`isEnd_`).  Every stream is read through one cursor only, so
the stream state is kept inside the cursor. -/
structure DeserializeIterator where
  stream_ : IStream
  value_ : CInt
  isEnd_ : Bool
deriving DecidableEq, Repr

/-- Default constructor `DeserializeIterator()`: only `isEnd_` is initialised. -/
def DeserializeIterator.default : DeserializeIterator :=
  { stream_ := { data := [], failbit := true }, value_ := CInt.ofBits 0, isEnd_ := true }

/-- Method `DeserializeIterator::isEnd`. -/
def DeserializeIterator.isEnd (d : DeserializeIterator) : Bool := d.isEnd_

/-- Method `DeserializeIterator::operator*`. -/
def DeserializeIterator.deref (d : DeserializeIterator) : CInt := d.value_

/-- Method `DeserializeIterator::operator->`. -/
def DeserializeIterator.arrow (d : DeserializeIterator) : CInt := d.value_

/-- Method `DeserializeIterator::operator++()`: throws on a cursor that has ended; otherwise
decodes the next value and sets the end flag when the stream has failed. -/
def DeserializeIterator.incr (d : DeserializeIterator) : Result DeserializeIterator Unit :=
  if d.isEnd_ then .thrown 1 d
  else
    let r := deserialize d.stream_
    .ok () { stream_ := r.2, value_ := r.1, isEnd_ := if r.2.failbit then true else d.isEnd_ }

/-- Method `DeserializeIterator::operator++(int)`: returns a copy taken before advancing. -/
def DeserializeIterator.postIncr (d : DeserializeIterator) :
    Result DeserializeIterator DeserializeIterator :=
  match d.incr with
  | .ok _ d1 => .ok d d1
  | .thrown c d1 => .thrown c d1

/-- Constructor `DeserializeIterator(std::istream&)`: binds the stream, clears the end flag
and advances once. -/
def DeserializeIterator.ofStream (stream : IStream) : Result DeserializeIterator Unit :=
  DeserializeIterator.incr { stream_ := stream, value_ := CInt.ofBits 0, isEnd_ := false }

/-! ## The environment: temporary file names and the file system -/

/-- The state outside the objects: the static counter `filenumber` of `tempFilename` and
the contents of the files on disk. -/
structure World where
  filenumber : Nat
  files : String → Option (List Nat)

/-- Function `tempFilename`: `"file" + std::to_string(filenumber++) + ".tmp"`, with the
counter as a natural number.  `tempFilenameInt` is the same function on the `int` counter of
the source; the two return the same names while the counter is below `2^31`. -/
def tempFilename (w : World) : String × World :=
  ("file" ++ toString w.filenumber ++ ".tmp", { w with filenumber := w.filenumber + 1 })

/-- Effect of `std::ofstream stream(file); ...; stream.close()`: the file `file` now holds
exactly the bytes written to the stream. -/
def World.store (w : World) (file : String) (content : OStream) : World :=
  { w with files := fun name => if name = file then some content else w.files name }

/-- Effect of `fstream::open(name, std::fstream::in)`: a stream over the contents of the
file; the fail bit is set when the file does not exist. -/
def World.openIn (w : World) (name : String) : IStream :=
  match w.files name with
  | some content => { data := content, failbit := false }
  | none => { data := [], failbit := true }

/-! ## Library algorithms -/

/-- Function `std::sort` on a vector of `int`. -/
def std_sort (v : List CInt) : List CInt := v.insertionSort (fun a b => a ≤ b)

/-- Function `std::reverse` on a vector. -/
def std_reverse (v : List CInt) : List CInt := v.reverse

/-- Exchange the elements at positions `i` and `j`. -/
def swapAt {α : Type} (v : List α) (i j : Nat) : List α :=
  match v[i]?, v[j]? with
  | some a, some b => (v.set i b).set j a
  | _, _ => v

/-- The comparison `comp(v[i], v[j])`. -/
def compAt {α : Type} (comp : α → α → Bool) (v : List α) (i j : Nat) : Bool :=
  match v[i]?, v[j]? with
  | some a, some b => comp a b
  | _, _ => false

/-- Sift the element at position `i` down in the heap formed by the first `n` elements. -/
def siftDown {α : Type} (comp : α → α → Bool) : Nat → List α → Nat → Nat → List α
  | 0, v, _, _ => v
  | fuel + 1, v, n, i =>
    let big := if 2 * i + 1 < n && compAt comp v i (2 * i + 1) then 2 * i + 1 else i
    let big := if 2 * i + 2 < n && compAt comp v big (2 * i + 2) then 2 * i + 2 else big
    if big = i then v else siftDown comp fuel (swapAt v i big) n big

/-- Sift the element at position `i` up towards the root. -/
def siftUp {α : Type} (comp : α → α → Bool) : Nat → List α → Nat → List α
  | 0, v, _ => v
  | fuel + 1, v, i =>
    if i = 0 then v
    else if compAt comp v ((i - 1) / 2) i then siftUp comp fuel (swapAt v ((i - 1) / 2) i) ((i - 1) / 2)
    else v

/-- Sift down the positions `k - 1`, ..., `0`, in that order. -/
def heapifyFrom {α : Type} (comp : α → α → Bool) : Nat → List α → List α
  | 0, v => v
  | k + 1, v => heapifyFrom comp k (siftDown comp v.length v v.length k)

/-- Function `std::make_heap(v.begin(), v.end(), comp)`. -/
def std_make_heap {α : Type} (comp : α → α → Bool) (v : List α) : List α :=
  heapifyFrom comp (v.length / 2) v

/-- Function `std::pop_heap(v.begin(), v.end(), comp)`: moves the top to the last position
and restores the heap on the elements before it. -/
def std_pop_heap {α : Type} (comp : α → α → Bool) (v : List α) : List α :=
  if v.length ≤ 1 then v
  else siftDown comp v.length (swapAt v 0 (v.length - 1)) (v.length - 1) 0

/-- Function `std::push_heap(v.begin(), v.end(), comp)`: inserts the last element into the
heap formed by the elements before it. -/
def std_push_heap {α : Type} (comp : α → α → Bool) (v : List α) : List α :=
  siftUp comp v.length v (v.length - 1)

/-! ## SortMerger -/

/-- Method `DeserializerCompare::operator()`: `*first > *second`. -/
def DeserializerCompare (first second : DeserializeIterator) : Bool :=
  decide (first.deref > second.deref)

/-- Class `SortMerger`. -/
structure SortMerger where
  deserializers_ : List DeserializeIterator
deriving DecidableEq, Repr

/-- Constructor `SortMerger::SortMerger`. -/
def SortMerger.ctor (deserializers : List DeserializeIterator) : SortMerger :=
  { deserializers_ := std_make_heap DeserializerCompare deserializers }

/-- Method `SortMerger::hasNext`. -/
def SortMerger.hasNext (m : SortMerger) : Bool := !m.deserializers_.isEmpty

/-- Method `SortMerger::next`. -/
def SortMerger.next (m : SortMerger) : Result SortMerger CInt :=
  if !m.hasNext then .thrown 1 m
  else
    let v := std_pop_heap DeserializerCompare m.deserializers_
    match v.getLast? with
    | none => .thrown 1 m -- not reached: the vector is not empty here
    | some back =>
      let result := back.deref
      match back.incr with
      | .thrown c back1 => .thrown c { deserializers_ := v.dropLast ++ [back1] }
      | .ok _ back1 =>
        if back1.isEnd then .ok result { deserializers_ := v.dropLast }
        else .ok result
          { deserializers_ := std_push_heap DeserializerCompare (v.dropLast ++ [back1]) }

/-! ## ReverseMerger -/

/-- Class `ReverseMerger`. -/
structure ReverseMerger where
  deserializers_ : List DeserializeIterator
deriving DecidableEq, Repr

/-- Constructor `ReverseMerger::ReverseMerger`. -/
def ReverseMerger.ctor (deserializers : List DeserializeIterator) : ReverseMerger :=
  { deserializers_ := deserializers }

/-- Method `ReverseMerger::hasNext`. -/
def ReverseMerger.hasNext (m : ReverseMerger) : Bool := !m.deserializers_.isEmpty

/-- Method `ReverseMerger::next`. -/
def ReverseMerger.next (m : ReverseMerger) : Result ReverseMerger CInt :=
  if !m.hasNext then .thrown 1 m
  else
    match m.deserializers_.getLast? with
    | none => .thrown 1 m -- not reached: the vector is not empty here
    | some back =>
      let result := back.deref
      match back.incr with
      | .thrown c back1 => .thrown c { deserializers_ := m.deserializers_.dropLast ++ [back1] }
      | .ok _ back1 =>
        if back1.isEnd then .ok result { deserializers_ := m.deserializers_.dropLast }
        else .ok result { deserializers_ := m.deserializers_.dropLast ++ [back1] }

/-! ## ExternalAlgoritm -/

/-- The template parameter `Merger`: a class with a constructor from a vector of cursors,
`hasNext()` and `next()`. -/
structure MergerClass where
  M : Type
  ctor : List DeserializeIterator → M
  hasNext : M → Bool
  next : M → Result M CInt

/-- The instantiation `Merger = SortMerger<int>`. -/
def SortMerger.cls : MergerClass :=
  { M := SortMerger, ctor := SortMerger.ctor, hasNext := SortMerger.hasNext,
    next := SortMerger.next }

/-- The instantiation `Merger = ReverseMerger<int>`. -/
def ReverseMerger.cls : MergerClass :=
  { M := ReverseMerger, ctor := ReverseMerger.ctor, hasNext := ReverseMerger.hasNext,
    next := ReverseMerger.next }

/-- Class `ExternalAlgoritm`.  `begin_` is the part of the input range `[begin_, end_)` not
yet consumed; `out_` is the sequence of values written through the output iterator so far.
The array `fstreams_` is not a field: every stream lives inside the cursor that reads it. -/
structure ExternalAlgoritm where
  begin_ : List CInt
  size_ : Nat
  maxObjectsInMemory_ : Nat
  out_ : List CInt
  countOfFiles_ : Nat
  filenames_ : List String

/-- Constructor `ExternalAlgoritm::ExternalAlgoritm(begin, end, size, maxObjectsInMemory, out)`
for the input range holding the values `input` and a fresh output iterator. -/
def ExternalAlgoritm.new (input : List CInt) (size maxObjectsInMemory : Nat) :
    ExternalAlgoritm :=
  { begin_ := input, size_ := size, maxObjectsInMemory_ := maxObjectsInMemory, out_ := [],
    countOfFiles_ := 0, filenames_ := [] }

/-- The program state during `run`: the environment and the algorithm object. -/
structure RunState where
  world : World
  self : ExternalAlgoritm

/-- The inner loop of `run`:
`while (begin_ != end_ && chunk.size() < maxObjectsInMemory_) { chunk.push_back(*begin_); ++begin_; }`.
Returns the chunk and the remaining input. -/
def fillChunk (maxObjectsInMemory : Nat) : List CInt → List CInt → List CInt × List CInt
  | [], chunk => (chunk, [])
  | x :: rest, chunk =>
    if chunk.length < maxObjectsInMemory then fillChunk maxObjectsInMemory rest (chunk ++ [x])
    else (chunk, x :: rest)

/-- One iteration of the outer loop `while (begin_ != end_)` of `run`: fill a chunk, prepare
it, write it to a fresh temporary file, record the file.  The call
`chunk.reserve(maxObjectsInMemory_)` only allocates capacity and is taken to succeed. -/
def partitionStep (prepare : List CInt → List CInt) (s : RunState) : RunState :=
  let filled := fillChunk s.self.maxObjectsInMemory_ s.self.begin_ []
  let chunk := prepare filled.1
  let named := tempFilename s.world
  let writer := std_copy chunk { stream_ := [] }
  { world := named.2.store named.1 writer.stream_,
    self := { s.self with
      begin_ := filled.2,
      countOfFiles_ := s.self.countOfFiles_ + 1,
      filenames_ := s.self.filenames_ ++ [named.1] } }

/-- The outer loop `while (begin_ != end_)` of `run`, for at most `fuel` iterations. -/
def partitionLoop (prepare : List CInt → List CInt) : Nat → RunState → Option RunState
  | 0, s => if s.self.begin_.isEmpty then some s else none
  | fuel + 1, s =>
    if s.self.begin_.isEmpty then some s
    else partitionLoop prepare fuel (partitionStep prepare s)

/-- The loop `for (i = 0; i < countOfFiles_; i++)` of `run` that opens the files and
constructs the cursors, over the indices still to visit. -/
def openLoop (w : World) (filenames : List String) :
    List Nat → List DeserializeIterator → Result (List DeserializeIterator) Unit
  | [], deserializers => .ok () deserializers
  | i :: rest, deserializers =>
    match DeserializeIterator.ofStream (w.openIn (filenames.getD i "")) with
    | .ok _ d => openLoop w filenames rest (deserializers.set i d)
    | .thrown c _ => .thrown c deserializers

/-- The loop `while (merger.hasNext()) { out_ = merger.next(); out_++; }` of `run`, for at
most `fuel` iterations, on the merger and the output written so far. -/
def mergeLoop (Mg : MergerClass) :
    Nat → Mg.M → List CInt → Option (Result (Mg.M × List CInt) Unit)
  | 0, m, out => if Mg.hasNext m then none else some (.ok () (m, out))
  | fuel + 1, m, out =>
    if Mg.hasNext m then
      match Mg.next m with
      | .ok value m1 => mergeLoop Mg fuel m1 (out ++ [value])
      | .thrown c m1 => some (.thrown c (m1, out))
    else some (.ok () (m, out))

/-- Method `ExternalAlgoritm::run`, with `fuel` bounding the iterations of each of its two
unbounded loops; `prepare` is the virtual method of the derived class. -/
def ExternalAlgoritm.run (Mg : MergerClass) (prepare : List CInt → List CInt) (fuel : Nat)
    (s : RunState) : Option (Result RunState Unit) :=
  match partitionLoop prepare fuel s with
  | none => none
  | some s1 =>
    match openLoop s1.world s1.self.filenames_ (List.range s1.self.countOfFiles_)
        (List.replicate s1.self.countOfFiles_ DeserializeIterator.default) with
    | .thrown c _ => some (.thrown c s1)
    | .ok _ deserializers =>
      match mergeLoop Mg fuel (Mg.ctor deserializers) s1.self.out_ with
      | none => none
      | some (.thrown c mo) => some (.thrown c { s1 with self := { s1.self with out_ := mo.2 } })
      | some (.ok _ mo) => some (.ok () { s1 with self := { s1.self with out_ := mo.2 } })

/-! ## ExternalSort and ExternalReverse -/

/-- Method `ExternalSort::prepare`: `std::sort(container.begin(), container.end())`. -/
def ExternalSort.prepare (container : List CInt) : List CInt := std_sort container

/-- Method `ExternalAlgoritm::run` of an `ExternalSort` object. -/
def ExternalSort.run (fuel : Nat) (s : RunState) : Option (Result RunState Unit) :=
  ExternalAlgoritm.run SortMerger.cls ExternalSort.prepare fuel s

/-- Method `ExternalReverse::prepare`: `std::reverse(container.begin(), container.end())`. -/
def ExternalReverse.prepare (container : List CInt) : List CInt := std_reverse container

/-- Method `ExternalAlgoritm::run` of an `ExternalReverse` object. -/
def ExternalReverse.run (fuel : Nat) (s : RunState) : Option (Result RunState Unit) :=
  ExternalAlgoritm.run ReverseMerger.cls ExternalReverse.prepare fuel s

/-! ## Definitions used to state the properties -/

/-- The bytes of a spill file holding the given values: their object representations, one
after the other. -/
def encode : List CInt → List Nat
  | [] => []
  | x :: xs => objectBytes x ++ encode xs

/-- The values a sequence of bytes decodes to, `sizeof(T)` bytes at a time, stopping when
fewer bytes remain. -/
def decodeAll : List Nat → List CInt
  | b0 :: b1 :: b2 :: b3 :: rest => fromBytes [b0, b1, b2, b3] :: decodeAll rest
  | _ => []

/-- A cursor that has not ended and whose stream has not failed. -/
def DeserializeIterator.Live (d : DeserializeIterator) : Prop :=
  d.isEnd_ = false ∧ d.stream_.failbit = false

/-- The values a live cursor still has to deliver: its current value, then the values left
in its stream. -/
def DeserializeIterator.pending (d : DeserializeIterator) : List CInt :=
  d.value_ :: decodeAll d.stream_.data

/-- Advance a cursor `n` times with `operator++`. -/
def DeserializeIterator.incrN : Nat → DeserializeIterator → Result DeserializeIterator Unit
  | 0, d => .ok () d
  | n + 1, d =>
    match d.incr with
    | .ok _ d1 => DeserializeIterator.incrN n d1
    | .thrown c d1 => .thrown c d1

/-- The reading loop `while (!d.isEnd()) { acc.push_back(*d); ++d; }`, for at most `fuel`
iterations. -/
def DeserializeIterator.drain : Nat → DeserializeIterator → List CInt → Option (List CInt)
  | 0, d, acc => if d.isEnd then some acc else none
  | fuel + 1, d, acc =>
    if d.isEnd then some acc
    else
      match d.incr with
      | .ok _ d1 => DeserializeIterator.drain fuel d1 (acc ++ [d.deref])
      | .thrown _ _ => none

/-- The operations of the public interface of `DeserializeIterator`. -/
inductive CursorOp where
  | deref
  | arrow
  | isEnd
  | incr
  | postIncr
deriving DecidableEq, Repr

/-- The cursor after an operation of its interface, whether the operation returned or
threw. -/
def CursorOp.apply (op : CursorOp) (d : DeserializeIterator) : DeserializeIterator :=
  match op with
  | .deref => d
  | .arrow => d
  | .isEnd => d
  | .incr => d.incr.state
  | .postIncr => d.postIncr.state

/-- The consecutive blocks of `c` values of the input; the last block may be shorter. -/
def blocks (c : Nat) (l : List CInt) : List (List CInt) :=
  (List.range ((l.length + c - 1) / c)).map (fun i => (l.drop (i * c)).take c)

/-- The environment after the given prepared chunks have been written to fresh temporary
files one after the other. -/
def storeChunks (w : World) : List (List CInt) → World
  | [] => w
  | chunk :: rest => storeChunks ((tempFilename w).2.store (tempFilename w).1 (encode chunk)) rest

/-- The names `tempFilename` returns in `m` successive calls when the counter stands at `k`. -/
def tempNames (k m : Nat) : List String :=
  (List.range m).map (fun i => "file" ++ toString (k + i) ++ ".tmp")

/-- The state in which the partitioning loop ends. -/
def partitioned (prepare : List CInt → List CInt) (s : RunState) : RunState :=
  { world := storeChunks s.world
      ((blocks s.self.maxObjectsInMemory_ s.self.begin_).map prepare),
    self := { s.self with
      begin_ := [],
      countOfFiles_ := s.self.countOfFiles_
        + (blocks s.self.maxObjectsInMemory_ s.self.begin_).length,
      filenames_ := s.self.filenames_
        ++ tempNames s.world.filenumber (blocks s.self.maxObjectsInMemory_ s.self.begin_).length } }

/-- The first `n` elements of `v` satisfy the heap condition on every edge whose parent
has index at least `k`: along such an edge the key of the parent is at most that of the child. -/
def HeapFrom {α K : Type} [LinearOrder K] (key : α → K) (k n : Nat) (v : List α) : Prop :=
  ∀ c a b, 0 < c → c < n → k ≤ (c - 1) / 2 →
    v[(c - 1) / 2]? = some a → v[c]? = some b → key a ≤ key b

/-- The vector is a binary min-heap on the cursors' current values. -/
def IsMinHeap (ds : List DeserializeIterator) : Prop :=
  HeapFrom DeserializeIterator.deref 0 ds.length ds

/-- The cursor `run` constructs on a spill file that holds the given chunk. -/
def chunkCursor (chunk : List CInt) : DeserializeIterator :=
  (DeserializeIterator.ofStream { data := encode chunk, failbit := false }).state

/-- The environment at process start: the counter of `tempFilename` is zero and no file
exists. -/
def World.initial : World := { filenumber := 0, files := fun _ => none }

/-- The input `5 3 1 4 2` of the specification's concrete scenarios. -/
def sampleInput : List CInt := [5, 3, 1, 4, 2].map CInt.ofInt

/-- The merger after `k` successive calls of `SortMerger::next` that all returned; `none`
when one of them threw. -/
def SortMerger.nexts : Nat → SortMerger → Option SortMerger
  | 0, m => some m
  | k + 1, m =>
    match m.next with
    | .ok _ m1 => SortMerger.nexts k m1
    | .thrown _ _ => none

/-- The same state with another value in the field `size_`. -/
def RunState.withSize (n : Nat) (s : RunState) : RunState :=
  { s with self := { s.self with size_ := n } }

/-- The same outcome on a state transformed by `f`. -/
def Result.mapState {σ τ α : Type} (f : σ → τ) : Result σ α → Result τ α
  | .ok val st => .ok val (f st)
  | .thrown code st => .thrown code (f st)

/-- The names returned by `n` successive calls of `tempFilename`, and the environment
afterwards. -/
def tempFilenames : Nat → World → List String × World
  | 0, w => ([], w)
  | n + 1, w => ((tempFilename w).1 :: (tempFilenames n (tempFilename w).2).1,
      (tempFilenames n (tempFilename w).2).2)

/-- The cursors `run` constructs on the spill files `3 5`, `1 4`, `2` of the specification's
sorting scenario. -/
def sampleCursors : List DeserializeIterator :=
  [[3, 5], [1, 4], [2]].map (fun f => chunkCursor (f.map CInt.ofInt))

/-- The sequence `out` is an interleaving of the sequences `fs`: it is obtained by taking,
again and again, the first remaining value of one of the sequences, until all of them are
used up.  (`skip` discards a sequence that is used up, `take` takes the first value `x` of a
sequence; the order in which the sequences are listed is immaterial.) -/
inductive Interleaving {α : Type} : List (List α) → List α → Prop
  | done : Interleaving [] []
  | skip {fs rest : List (List α)} {out : List α} :
      fs.Perm ([] :: rest) → Interleaving rest out → Interleaving fs out
  | take {fs rest : List (List α)} {x : α} {t out : List α} :
      fs.Perm ((x :: t) :: rest) → Interleaving (t :: rest) out → Interleaving fs (x :: out)

/-- Function `tempFilename` on the counter as the source declares it, a `static int`:
returns `"file" + std::to_string(filenumber) + ".tmp"` and the incremented counter.  The
increment of `INT_MAX` overflows, which C++ leaves undefined; the model takes the
two's-complement result `INT_MIN` that the usual implementations produce. -/
def tempFilenameInt (filenumber : CInt) : String × CInt :=
  ("file" ++ toString filenumber.val ++ ".tmp", CInt.ofInt (filenumber.val + 1))

/-- The value of the `int` counter after `n` calls of `tempFilename` in a process; it
starts at 0. -/
def counterAfter : Nat → CInt
  | 0 => CInt.ofInt 0
  | n + 1 => (tempFilenameInt (counterAfter n)).2

/-- The name that call number `i` of `tempFilename` in a process returns, counting the
calls from 0. -/
def nthTempName (i : Nat) : String := (tempFilenameInt (counterAfter i)).1

/-! # Properties -/

/-! ## The codec -/

theorem ofBits_toBits (v : CInt) : CInt.ofBits v.toBits = v := by
  obtain ⟨x, h1, h2⟩ := v
  apply Subtype.ext
  simp only [CInt.ofBits, CInt.toBits]
  split <;> omega

theorem fromBytes_objectBytes (v : CInt) : fromBytes (objectBytes v) = v := by
  have h : v.toBits < 4294967296 := by
    unfold CInt.toBits; omega
  conv_rhs => rw [← ofBits_toBits v]
  unfold fromBytes objectBytes
  congr 1
  simp only [List.getD_cons_zero, List.getD_cons_succ]
  omega

theorem std_copy_stream (vs : List CInt) (writer : SerializeIterator) :
    (std_copy vs writer).stream_ = writer.stream_ ++ encode vs := by
  induction vs generalizing writer with
  | nil => simp [std_copy, encode]
  | cons x xs ih =>
    simp [std_copy, encode, ih, SerializeIterator.assign, serialize, OStream.write]

theorem std_copy_fresh (vs : List CInt) : (std_copy vs { stream_ := [] }).stream_ = encode vs := by
  simp [std_copy_stream]

theorem decodeAll_encode_append (vs : List CInt) (tail : List Nat) :
    decodeAll (encode vs ++ tail) = vs ++ decodeAll tail := by
  induction vs with
  | nil => simp [encode]
  | cons x xs ih =>
    have h := fromBytes_objectBytes x
    simp only [encode, objectBytes, List.cons_append, List.nil_append, List.append_assoc,
      decodeAll] at h ⊢
    rw [h]
    exact congrArg _ ih

theorem decodeAll_encode (vs : List CInt) : decodeAll (encode vs) = vs := by
  have h := decodeAll_encode_append vs []
  simpa [decodeAll] using h

theorem encode_length (vs : List CInt) : (encode vs).length = 4 * vs.length := by
  induction vs with
  | nil => rfl
  | cons x xs ih => simp [encode, objectBytes, ih]; omega

/-! ## Cursors -/

theorem deserialize_of_four (b0 b1 b2 b3 : Nat) (rest : List Nat) :
    deserialize { data := b0 :: b1 :: b2 :: b3 :: rest, failbit := false }
      = (fromBytes [b0, b1, b2, b3], { data := rest, failbit := false }) := by
  simp [deserialize, IStream.read, sizeofT]

theorem deserialize_short (bs : List Nat) (h : bs.length < 4) :
    (deserialize { data := bs, failbit := false }).2 = { data := [], failbit := true } := by
  simp only [deserialize, IStream.read, sizeofT]
  rw [if_neg (by simp), if_neg (by simpa using h)]

theorem decodeAll_short (bs : List Nat) (h : bs.length < 4) : decodeAll bs = [] := by
  match bs, h with
  | [], _ => rfl
  | [_], _ => rfl
  | [_, _], _ => rfl
  | [_, _, _], _ => rfl
  | _ :: _ :: _ :: _ :: _, h => simp at h; omega

/-- Advancing a live cursor never throws: it either ends the cursor, when its stream holds
no further value, or leaves it live on the rest of its values. -/
theorem incr_of_live (d : DeserializeIterator) (h : d.Live) :
    ∃ d1, d.incr = .ok () d1 ∧
      ((d1.isEnd_ = true ∧ d.pending = [d.value_]) ∨
       (d1.Live ∧ d.pending = d.value_ :: d1.pending)) := by
  obtain ⟨⟨data, fb⟩, value, e⟩ := d
  obtain ⟨h1, h2⟩ := h
  simp only at h1 h2
  subst h1 h2
  match data with
  | b0 :: b1 :: b2 :: b3 :: rest =>
    refine ⟨_, by simp only [DeserializeIterator.incr]; rfl, Or.inr ?_⟩
    simp [deserialize_of_four, DeserializeIterator.Live, DeserializeIterator.pending, decodeAll]
  | [] | [_] | [_, _] | [_, _, _] =>
    refine ⟨_, by simp only [DeserializeIterator.incr]; rfl, Or.inl ?_⟩
    simp [deserialize, IStream.read, sizeofT, DeserializeIterator.pending, decodeAll]

/-- Constructing a cursor on a stream that has not failed never throws: the cursor starts
ended when the stream holds no value, and otherwise live on the values of the stream. -/
theorem ofStream_of_good (data : List Nat) :
    ∃ d, DeserializeIterator.ofStream { data := data, failbit := false } = .ok () d ∧
      ((d.isEnd_ = true ∧ decodeAll data = []) ∨ (d.Live ∧ d.pending = decodeAll data)) := by
  obtain ⟨d1, h1, h2⟩ := incr_of_live
    { stream_ := { data := data, failbit := false }, value_ := CInt.ofBits 0, isEnd_ := false }
    ⟨rfl, rfl⟩
  refine ⟨d1, h1, ?_⟩
  rcases h2 with ⟨h2, h3⟩ | ⟨h2, h3⟩
  · left
    refine ⟨h2, ?_⟩
    simpa [DeserializeIterator.pending] using h3
  · right
    refine ⟨h2, ?_⟩
    simp only [DeserializeIterator.pending, List.cons.injEq, true_and] at h3
    exact h3.symm

theorem drain_of_ended (fuel : Nat) (d : DeserializeIterator) (acc : List CInt)
    (h : d.isEnd_ = true) : d.drain fuel acc = some acc := by
  cases fuel <;> simp [DeserializeIterator.drain, DeserializeIterator.isEnd, h]

theorem drain_of_live (n : Nat) :
    ∀ (d : DeserializeIterator) (acc : List CInt), d.Live → d.pending.length = n →
      d.drain n acc = some (acc ++ d.pending) := by
  induction n with
  | zero => intro d acc _ hn; simp [DeserializeIterator.pending] at hn
  | succ n ih =>
    intro d acc hl hn
    obtain ⟨d1, h1, h2⟩ := incr_of_live d hl
    have hne : d.isEnd = false := hl.1
    simp only [DeserializeIterator.drain, hne, h1, Bool.false_eq_true, if_false]
    rcases h2 with ⟨h2, h3⟩ | ⟨h2, h3⟩
    · rw [drain_of_ended _ _ _ h2, h3]; rfl
    · rw [h3] at hn ⊢
      rw [ih d1 _ h2 (by simpa using hn)]
      simp [DeserializeIterator.deref]

theorem incrN_of_live (k : Nat) :
    ∀ (d : DeserializeIterator), d.Live → k < d.pending.length →
      ∃ dk, d.incrN k = .ok () dk ∧ dk.Live ∧ dk.pending = d.pending.drop k := by
  induction k with
  | zero => intro d hl _; exact ⟨d, rfl, hl, rfl⟩
  | succ k ih =>
    intro d hl hk
    obtain ⟨d1, h1, h2⟩ := incr_of_live d hl
    rcases h2 with ⟨_, h3⟩ | ⟨h2, h3⟩
    · rw [h3] at hk; simp at hk
    · rw [h3] at hk
      obtain ⟨dk, e1, e2, e3⟩ := ih d1 h2 (by simpa using hk)
      refine ⟨dk, ?_, e2, ?_⟩
      · simp only [DeserializeIterator.incrN, h1]; exact e1
      · rw [e3, h3]; rfl

theorem incrN_to_end (n : Nat) :
    ∀ (d : DeserializeIterator), d.Live → d.pending.length = n →
      ∃ dn, d.incrN n = .ok () dn ∧ dn.isEnd_ = true := by
  induction n with
  | zero => intro d _ hn; simp [DeserializeIterator.pending] at hn
  | succ n ih =>
    intro d hl hn
    obtain ⟨d1, h1, h2⟩ := incr_of_live d hl
    rcases h2 with ⟨h2, h3⟩ | ⟨h2, h3⟩
    · rw [h3] at hn
      have : n = 0 := by simpa using hn.symm
      subst this
      exact ⟨d1, by simp only [DeserializeIterator.incrN, h1], h2⟩
    · rw [h3] at hn
      obtain ⟨dn, e1, e2⟩ := ih d1 h2 (by simpa using hn)
      exact ⟨dn, by simp only [DeserializeIterator.incrN, h1]; exact e1, e2⟩

theorem openIn_store (w : World) (file : String) (content : List Nat) :
    (w.store file content).openIn file = { data := content, failbit := false } := by
  simp [World.openIn, World.store]

theorem apply_of_ended (op : CursorOp) (d : DeserializeIterator) (h : d.isEnd_ = true) :
    op.apply d = d := by
  cases op <;>
    simp [CursorOp.apply, DeserializeIterator.incr, DeserializeIterator.postIncr, h, Result.state]


/-! ## The partitioning phase -/

theorem fillChunk_eq (c : Nat) (l chunk : List CInt) :
    fillChunk c l chunk = (chunk ++ l.take (c - chunk.length), l.drop (c - chunk.length)) := by
  induction l generalizing chunk with
  | nil => simp [fillChunk]
  | cons x rest ih =>
    simp only [fillChunk]
    split
    · rename_i h
      rw [ih]
      have : c - chunk.length = (c - (chunk ++ [x]).length) + 1 := by
        simp; omega
      rw [this]
      simp
    · rename_i h
      have : c - chunk.length = 0 := by omega
      simp [this]

theorem blocks_nil (c : Nat) : blocks c [] = [] := by
  unfold blocks
  have : ([] : List CInt).length + c - 1 = c - 1 := by simp
  rw [this]
  rcases Nat.eq_zero_or_pos c with h | h
  · subst h; simp
  · rw [Nat.div_eq_of_lt (by omega)]; simp

theorem blocks_cons (c : Nat) (hc : 1 ≤ c) (l : List CInt) (hl : l ≠ []) :
    blocks c l = l.take c :: blocks c (l.drop c) := by
  have hlen : 0 < l.length := List.length_pos.mpr hl
  unfold blocks
  have h1 : (l.length + c - 1) / c = ((l.drop c).length + c - 1) / c + 1 := by
    rw [List.length_drop]
    by_cases h : l.length ≤ c
    · have h2 : l.length - c + c - 1 = c - 1 := by omega
      rw [h2, Nat.div_eq_of_lt (by omega : c - 1 < c)]
      have h3 : l.length + c - 1 = (l.length - 1) + c := by omega
      rw [h3, Nat.add_div_right _ (by omega), Nat.div_eq_of_lt (by omega)]
    · have h2 : l.length + c - 1 = (l.length - c + c - 1) + c := by omega
      rw [h2, Nat.add_div_right _ (by omega)]
  rw [h1, List.range_succ_eq_map, List.map_cons, List.map_map]
  simp only [Nat.zero_mul, List.drop_zero, List.cons.injEq, true_and]
  apply List.map_congr_left
  intro i _
  simp only [Function.comp, List.drop_drop]
  congr 2
  rw [Nat.succ_mul]; omega


theorem tempNames_succ (k m : Nat) :
    tempNames k (m + 1) = ("file" ++ toString k ++ ".tmp") :: tempNames (k + 1) m := by
  unfold tempNames
  rw [List.range_succ_eq_map, List.map_cons, List.map_map]
  simp only [Nat.add_zero, List.cons.injEq, true_and]
  apply List.map_congr_left
  intro i _
  simp only [Function.comp]
  congr 3
  omega

theorem partitionStep_eq (prepare : List CInt → List CInt) (s : RunState) :
    partitionStep prepare s =
      { world := (tempFilename s.world).2.store (tempFilename s.world).1
          (encode (prepare (s.self.begin_.take s.self.maxObjectsInMemory_))),
        self := { s.self with
          begin_ := s.self.begin_.drop s.self.maxObjectsInMemory_,
          countOfFiles_ := s.self.countOfFiles_ + 1,
          filenames_ := s.self.filenames_ ++ [(tempFilename s.world).1] } } := by
  simp [partitionStep, fillChunk_eq, std_copy_fresh]

theorem partitionLoop_eq (prepare : List CInt → List CInt) (fuel : Nat) :
    ∀ s : RunState, 1 ≤ s.self.maxObjectsInMemory_ → s.self.begin_.length ≤ fuel →
      partitionLoop prepare fuel s = some (partitioned prepare s) := by
  induction fuel with
  | zero =>
    intro s _ hlen
    obtain ⟨w, a⟩ := s
    have hnil : a.begin_ = [] := List.length_eq_zero.mp (Nat.le_zero.mp hlen)
    obtain ⟨b, sz, mx, o, cnt, fns⟩ := a
    simp only at hnil
    subst hnil
    simp [partitionLoop, partitioned, blocks_nil, storeChunks, tempNames]
  | succ fuel ih =>
    intro s hc hlen
    by_cases hnil : s.self.begin_ = []
    · obtain ⟨w, a⟩ := s
      obtain ⟨b, sz, mx, o, cnt, fns⟩ := a
      simp only at hnil
      subst hnil
      simp [partitionLoop, partitioned, blocks_nil, storeChunks, tempNames]
    · have hne : s.self.begin_.isEmpty = false := by
        cases h : s.self.begin_ with
        | nil => exact absurd h hnil
        | cons _ _ => rfl
      have hpos : 0 < s.self.begin_.length := List.length_pos.mpr hnil
      simp only [partitionLoop, hne, Bool.false_eq_true, if_false]
      rw [ih (partitionStep prepare s)
        (by rw [partitionStep_eq]; exact hc)
        (by rw [partitionStep_eq]; simp only [List.length_drop]; omega)]
      rw [partitionStep_eq]
      simp only [partitioned, blocks_cons _ hc _ hnil, List.map_cons, storeChunks,
        List.length_cons, tempNames_succ, List.append_assoc, List.singleton_append]
      simp [tempFilename, World.store, Nat.add_assoc, Nat.add_comm 1]


theorem digitChar_val (d : Nat) (h : d < 10) : (Nat.digitChar d).toNat - 48 = d := by
  interval_cases d <;> rfl

theorem toDigitsCore_val (fuel : Nat) : ∀ (n : Nat) (ds : List Char), n < fuel →
    (Nat.toDigitsCore 10 fuel n ds).foldl (fun a c => 10 * a + (c.toNat - 48)) 0
      = ds.foldl (fun a c => 10 * a + (c.toNat - 48)) n := by
  induction fuel with
  | zero => intro n ds h; omega
  | succ fuel ih =>
    intro n ds h
    simp only [Nat.toDigitsCore]
    split
    · rename_i h0
      simp only [List.foldl_cons]
      rw [digitChar_val _ (Nat.mod_lt _ (by decide))]
      congr 1
      omega
    · rename_i h0
      rw [ih _ _ (by omega)]
      simp only [List.foldl_cons]
      rw [digitChar_val _ (Nat.mod_lt _ (by decide))]
      congr 1
      omega

theorem toString_nat_injective (i j : Nat) (h : toString i = toString j) : i = j := by
  have h1 : Nat.toDigits 10 i = Nat.toDigits 10 j := by
    have := congrArg String.data h
    simpa [toString, Nat.repr] using this
  have hi := toDigitsCore_val (i + 1) i [] (by omega)
  have hj := toDigitsCore_val (j + 1) j [] (by omega)
  simp only [List.foldl_nil] at hi hj
  rw [← hi, ← hj]
  exact congrArg _ h1

theorem tempName_injective (i j : Nat)
    (h : "file" ++ toString i ++ ".tmp" = "file" ++ toString j ++ ".tmp") : i = j := by
  apply toString_nat_injective
  have := congrArg String.data h
  simp only [String.data_append, List.append_assoc] at this
  have h2 := List.append_cancel_left this
  have h3 := List.append_cancel_right h2
  exact String.ext h3

theorem storeChunks_filenumber (chunks : List (List CInt)) :
    ∀ w : World, (storeChunks w chunks).filenumber = w.filenumber + chunks.length := by
  induction chunks with
  | nil => intro w; rfl
  | cons c rest ih =>
    intro w
    simp only [storeChunks, ih, List.length_cons]
    simp [tempFilename, World.store]; omega

theorem storeChunks_frame (chunks : List (List CInt)) :
    ∀ (w : World) (name : String),
      (∀ j, j < chunks.length → name ≠ "file" ++ toString (w.filenumber + j) ++ ".tmp") →
      (storeChunks w chunks).files name = w.files name := by
  induction chunks with
  | nil => intro w name _; rfl
  | cons c rest ih =>
    intro w name h
    simp only [storeChunks]
    rw [ih]
    · have h0 := h 0 (by simp)
      simp only [Nat.add_zero] at h0
      simp [tempFilename, World.store, h0]
    · intro j hj
      have := h (j + 1) (by simpa using hj)
      simpa [tempFilename, World.store, Nat.add_assoc, Nat.add_comm 1] using this

theorem storeChunks_files (chunks : List (List CInt)) :
    ∀ (w : World) (i : Nat) (hi : i < chunks.length),
      (storeChunks w chunks).files ("file" ++ toString (w.filenumber + i) ++ ".tmp")
        = some (encode chunks[i]) := by
  induction chunks with
  | nil => intro w i hi; simp at hi
  | cons c rest ih =>
    intro w i hi
    simp only [storeChunks]
    cases i with
    | zero =>
      rw [storeChunks_frame]
      · simp [tempFilename, World.store]
      · intro j _ hEq
        have := tempName_injective _ _ hEq
        simp [tempFilename, World.store] at this
        omega
    | succ i =>
      have := ih ((tempFilename w).2.store (tempFilename w).1 (encode c)) i (by simpa using hi)
      simpa [tempFilename, World.store, Nat.add_assoc, Nat.add_comm 1] using this

theorem ofStream_ok (s : IStream) :
    DeserializeIterator.ofStream s = .ok () (DeserializeIterator.ofStream s).state := by
  simp [DeserializeIterator.ofStream, DeserializeIterator.incr, Result.state]

theorem openLoop_fold (w : World) (F : List String) :
    ∀ (idxs : List Nat) (ds : List DeserializeIterator),
      openLoop w F idxs ds = .ok () (idxs.foldl
        (fun acc i => acc.set i (DeserializeIterator.ofStream (w.openIn (F.getD i ""))).state) ds) := by
  intro idxs
  induction idxs with
  | nil => intro ds; rfl
  | cons i rest ih =>
    intro ds
    rw [openLoop, ofStream_ok]
    simp only [List.foldl_cons]
    exact ih _

theorem foldl_set_range {α : Type} (g : Nat → α) (ds : List α) :
    ∀ m, m ≤ ds.length →
      (List.range m).foldl (fun acc i => acc.set i (g i)) ds = (List.range m).map g ++ ds.drop m := by
  intro m
  induction m with
  | zero => intro _; simp
  | succ m ih =>
    intro hm
    rw [List.range_succ, List.foldl_append, ih (by omega)]
    simp only [List.foldl_cons, List.foldl_nil, List.map_append, List.map_cons, List.map_nil,
      List.append_assoc, List.singleton_append]
    have hlen : ((List.range m).map g).length = m := by simp
    rw [List.set_append_right _ _ (by omega), hlen, Nat.sub_self]
    congr 1
    have : ds.drop m = ds[m] :: ds.drop (m + 1) := by
      rw [List.drop_eq_getElem_cons]
    rw [this]; rfl

theorem openLoop_eq (w : World) (F : List String) :
    openLoop w F (List.range F.length) (List.replicate F.length DeserializeIterator.default)
      = .ok () (F.map (fun name => (DeserializeIterator.ofStream (w.openIn name)).state)) := by
  rw [openLoop_fold, foldl_set_range _ _ _ (by simp)]
  congr 1
  simp only [List.drop_replicate, Nat.sub_self, List.replicate_zero, List.append_nil]
  apply List.ext_getElem
  · simp
  · intro i h1 h2
    simp only [List.getElem_map, List.getElem_range]
    rw [List.getD_eq_getElem _ _ (by simpa using h2)]


/-! ## The heap algorithms -/

section Heap
variable {α K : Type} [LinearOrder K]

theorem swapAt_length (v : List α) (i j : Nat) : (swapAt v i j).length = v.length := by
  unfold swapAt
  split <;> simp

theorem swapAt_getElem? (v : List α) (i j m : Nat) (hi : i < v.length) (hj : j < v.length) :
    (swapAt v i j)[m]? = if m = j then v[i]? else if m = i then v[j]? else v[m]? := by
  unfold swapAt
  rw [List.getElem?_eq_getElem hi, List.getElem?_eq_getElem hj]
  simp only [List.getElem?_set, List.length_set]
  by_cases h1 : j = m
  · subst h1; simp [hj]
  · by_cases h2 : i = m
    · subst h2; simp [h1, hi, Ne.symm h1]
    · simp [h1, h2, Ne.symm h1, Ne.symm h2]

theorem perm_cons_set (x : α) : ∀ (xs : List α) (j : Nat) (hj : j < xs.length),
    (xs[j] :: xs.set j x).Perm (x :: xs) := by
  intro xs
  induction xs with
  | nil => intro j hj; simp at hj
  | cons y ys ih =>
    intro j hj
    cases j with
    | zero => simpa using List.Perm.swap x y ys
    | succ j =>
      simp only [List.getElem_cons_succ, List.set_cons_succ]
      exact (List.Perm.swap y _ _).trans (((ih j (by simpa using hj)).cons y).trans
        (List.Perm.swap x y ys))

theorem perm_set_set_lt : ∀ (v : List α) (i j : Nat) (hi : i < v.length) (hj : j < v.length),
    i < j → ((v.set i v[j]).set j v[i]).Perm v := by
  intro v
  induction v with
  | nil => intro i j hi; simp at hi
  | cons x xs ih =>
    intro i j hi hj hij
    cases j with
    | zero => omega
    | succ j =>
      cases i with
      | zero =>
        simp only [List.set_cons_zero, List.set_cons_succ, List.getElem_cons_succ,
          List.getElem_cons_zero]
        exact perm_cons_set x xs j (by simpa using hj)
      | succ i =>
        simp only [List.set_cons_succ, List.getElem_cons_succ]
        exact (ih i j (by simpa using hi) (by simpa using hj) (by omega)).cons x

theorem swapAt_perm (v : List α) (i j : Nat) : (swapAt v i j).Perm v := by
  unfold swapAt
  split
  · rename_i a b ha hb
    obtain ⟨hi, ha⟩ := List.getElem?_eq_some_iff.mp ha
    obtain ⟨hj, hb⟩ := List.getElem?_eq_some_iff.mp hb
    subst ha hb
    rcases Nat.lt_trichotomy i j with h | h | h
    · exact perm_set_set_lt v i j hi hj h
    · subst h
      have hs : v.set i v[i] = v := by
        apply List.ext_getElem?
        intro m
        rw [List.getElem?_set]
        by_cases hm : i = m
        · subst hm; simp [hi]
        · simp [hm]
      rw [hs, hs]
    · rw [List.set_comm _ _ _ (by omega)]
      exact perm_set_set_lt v j i hj hi h
  · exact List.Perm.refl _

theorem getElem?_some_of_lt (v : List α) (i : Nat) (hi : i < v.length) : ∃ a, v[i]? = some a :=
  ⟨v[i], List.getElem?_eq_getElem hi⟩

theorem compAt_eq (comp : α → α → Bool) (v : List α) (i j : Nat) (a b : α)
    (ha : v[i]? = some a) (hb : v[j]? = some b) : compAt comp v i j = comp a b := by
  simp [compAt, ha, hb]

/-- One round of `siftDown`: either the element at `i` is no larger than its children and
nothing changes, or it is exchanged with its smallest child `b` and the sift continues at `b`. -/
theorem siftDown_cases (key : α → K) (comp : α → α → Bool)
    (hcomp : ∀ a b, comp a b = decide (key b < key a))
    (fuel : Nat) (v : List α) (n i : Nat) (hn : n ≤ v.length) (hi : i < n) :
    ∃ a, v[i]? = some a ∧
    ((siftDown comp (fuel + 1) v n i = v ∧
        ∀ c x, 0 < c → c < n → (c - 1) / 2 = i → v[c]? = some x → key a ≤ key x) ∨
     (∃ b y, 0 < b ∧ b < n ∧ (b - 1) / 2 = i ∧ v[b]? = some y ∧ key y < key a ∧
        (∀ c x, 0 < c → c < n → (c - 1) / 2 = i → v[c]? = some x → key y ≤ key x) ∧
        siftDown comp (fuel + 1) v n i = siftDown comp fuel (swapAt v i b) n b)) := by
  obtain ⟨a, ha⟩ := getElem?_some_of_lt v i (by omega)
  refine ⟨a, ha, ?_⟩
  have hkids : ∀ c, 0 < c → (c - 1) / 2 = i → c = 2 * i + 1 ∨ c = 2 * i + 2 := by
    intro c h1 h2; omega
  have hne1 : 2 * i + 1 ≠ i := by omega
  have hne2 : 2 * i + 2 ≠ i := by omega
  by_cases hl : 2 * i + 1 < n
  · obtain ⟨xl, hxl⟩ := getElem?_some_of_lt v (2 * i + 1) (by omega)
    by_cases hr : 2 * i + 2 < n
    · obtain ⟨xr, hxr⟩ := getElem?_some_of_lt v (2 * i + 2) (by omega)
      by_cases c1 : key xl < key a
      · by_cases c2 : key xr < key xl
        · right
          refine ⟨2 * i + 2, xr, by omega, hr, by omega, hxr, lt_trans c2 c1, ?_, ?_⟩
          · intro c x h1 h2 h3 hx
            rcases hkids c h1 h3 with h | h
            · subst h; rw [hxl] at hx; cases hx; exact le_of_lt c2
            · subst h; rw [hxr] at hx; cases hx; exact le_refl _
          · simp [siftDown, hl, hr, compAt_eq comp v _ _ _ _ ha hxl, compAt_eq comp v _ _ _ _ hxl hxr,
              hcomp, c1, c2, hne1, hne2]
        · right
          refine ⟨2 * i + 1, xl, by omega, hl, by omega, hxl, c1, ?_, ?_⟩
          · intro c x h1 h2 h3 hx
            rcases hkids c h1 h3 with h | h
            · subst h; rw [hxl] at hx; cases hx; exact le_refl _
            · subst h; rw [hxr] at hx; cases hx; exact not_lt.mp c2
          · simp [siftDown, hl, hr, compAt_eq comp v _ _ _ _ ha hxl, compAt_eq comp v _ _ _ _ hxl hxr,
              hcomp, c1, c2, hne1, hne2]
      · by_cases c2 : key xr < key a
        · right
          refine ⟨2 * i + 2, xr, by omega, hr, by omega, hxr, c2, ?_, ?_⟩
          · intro c x h1 h2 h3 hx
            rcases hkids c h1 h3 with h | h
            · subst h; rw [hxl] at hx; cases hx
              exact le_trans (le_of_lt c2) (not_lt.mp c1)
            · subst h; rw [hxr] at hx; cases hx; exact le_refl _
          · simp [siftDown, hl, hr, compAt_eq comp v _ _ _ _ ha hxl, compAt_eq comp v _ _ _ _ ha hxr,
              hcomp, c1, c2, hne1, hne2]
        · left
          refine ⟨?_, ?_⟩
          · simp [siftDown, hl, hr, compAt_eq comp v _ _ _ _ ha hxl, compAt_eq comp v _ _ _ _ ha hxr,
              hcomp, c1, c2, hne1, hne2]
          · intro c x h1 h2 h3 hx
            rcases hkids c h1 h3 with h | h
            · subst h; rw [hxl] at hx; cases hx; exact not_lt.mp c1
            · subst h; rw [hxr] at hx; cases hx; exact not_lt.mp c2
    · by_cases c1 : key xl < key a
      · right
        refine ⟨2 * i + 1, xl, by omega, hl, by omega, hxl, c1, ?_, ?_⟩
        · intro c x h1 h2 h3 hx
          rcases hkids c h1 h3 with h | h
          · subst h; rw [hxl] at hx; cases hx; exact le_refl _
          · omega
        · simp [siftDown, hl, hr, compAt_eq comp v _ _ _ _ ha hxl, hcomp, c1, hne1, hne2]
      · left
        refine ⟨?_, ?_⟩
        · simp [siftDown, hl, hr, compAt_eq comp v _ _ _ _ ha hxl, hcomp, c1, hne1, hne2]
        · intro c x h1 h2 h3 hx
          rcases hkids c h1 h3 with h | h
          · subst h; rw [hxl] at hx; cases hx; exact not_lt.mp c1
          · omega
  · left
    have hr : ¬ 2 * i + 2 < n := by omega
    refine ⟨?_, ?_⟩
    · simp [siftDown, hl, hr]
    · intro c x h1 h2 h3 hx
      rcases hkids c h1 h3 with h | h <;> omega

theorem siftDown_basic (key : α → K) (comp : α → α → Bool)
    (hcomp : ∀ a b, comp a b = decide (key b < key a)) (fuel : Nat) :
    ∀ (v : List α) (n i : Nat), n ≤ v.length → i < n →
      (siftDown comp fuel v n i).Perm v ∧ (siftDown comp fuel v n i).length = v.length ∧
      ∀ m, n ≤ m → (siftDown comp fuel v n i)[m]? = v[m]? := by
  induction fuel with
  | zero => intro v n i _ _; exact ⟨List.Perm.refl _, rfl, fun _ _ => rfl⟩
  | succ fuel ih =>
    intro v n i hn hi
    obtain ⟨a, ha, h⟩ := siftDown_cases key comp hcomp fuel v n i hn hi
    rcases h with ⟨h, _⟩ | ⟨b, y, hb0, hbn, hbi, hy, _, _, h⟩
    · rw [h]; exact ⟨List.Perm.refl _, rfl, fun _ _ => rfl⟩
    · rw [h]
      obtain ⟨e1, e2, e3⟩ := ih (swapAt v i b) n b (by rw [swapAt_length]; exact hn) hbn
      refine ⟨e1.trans (swapAt_perm v i b), by rw [e2, swapAt_length], ?_⟩
      intro m hm
      rw [e3 m hm, swapAt_getElem? v i b m (by omega) (by omega)]
      rw [if_neg (by omega), if_neg (by omega)]

theorem siftDown_heap (key : α → K) (comp : α → α → Bool)
    (hcomp : ∀ a b, comp a b = decide (key b < key a)) (fuel : Nat) :
    ∀ (v : List α) (n i k : Nat), n ≤ v.length → i < n → k ≤ i → n ≤ fuel + i →
      (∀ c x y, 0 < c → c < n → k ≤ (c - 1) / 2 → (c - 1) / 2 ≠ i →
        v[(c - 1) / 2]? = some x → v[c]? = some y → key x ≤ key y) →
      (∀ c x y, 0 < i → k ≤ (i - 1) / 2 → 0 < c → c < n → (c - 1) / 2 = i →
        v[(i - 1) / 2]? = some x → v[c]? = some y → key x ≤ key y) →
      HeapFrom key k n (siftDown comp fuel v n i) := by
  induction fuel with
  | zero => intro v n i k _ hi _ hf; omega
  | succ fuel ih =>
    intro v n i k hn hi hk hf hA hB
    obtain ⟨a, ha, h⟩ := siftDown_cases key comp hcomp fuel v n i hn hi
    rcases h with ⟨h, hkid⟩ | ⟨b, y0, hb0, hbn, hbi, hy0, hlt, hkid, h⟩
    · rw [h]
      intro c x y hc0 hcn hkp hx hy
      by_cases hp : (c - 1) / 2 = i
      · rw [hp, ha] at hx; cases hx
        exact hkid c y hc0 hcn hp hy
      · exact hA c x y hc0 hcn hkp hp hx hy
    · rw [h]
      have hsw : ∀ m, (swapAt v i b)[m]? = if m = b then v[i]? else if m = i then v[b]? else v[m]? :=
        fun m => swapAt_getElem? v i b m (by omega) (by omega)
      apply ih (swapAt v i b) n b k (by rw [swapAt_length]; exact hn) hbn (by omega) (by omega)
      · intro c x y hc0 hcn hkp hpb hx hy
        rw [hsw] at hx hy
        rw [if_neg hpb] at hx
        by_cases hp : (c - 1) / 2 = i
        · rw [if_pos hp, hy0] at hx; cases hx
          by_cases hcb : c = b
          · rw [if_pos hcb, ha] at hy; cases hy; exact le_of_lt hlt
          · rw [if_neg hcb, if_neg (by omega)] at hy
            exact hkid c y hc0 hcn hp hy
        · rw [if_neg hp] at hx
          have hcb : c ≠ b := by intro e; subst e; exact hp hbi
          rw [if_neg hcb] at hy
          by_cases hci : c = i
          · rw [if_pos hci, hy0] at hy
            have e := Option.some.inj hy
            rw [← e]
            subst hci
            exact hB b x y0 (by omega) hkp hb0 hbn hbi hx hy0
          · rw [if_neg hci] at hy
            exact hA c x y hc0 hcn hkp hp hx hy
      · intro c x y _ _ hc0 hcn hcp hx hy
        rw [hsw] at hx hy
        rw [hbi, if_neg (by omega), if_pos rfl, hy0] at hx
        have e := Option.some.inj hx
        rw [← e]
        rw [if_neg (by omega), if_neg (by omega)] at hy
        exact hA c y0 y hc0 hcn (by omega) (by omega) (by rw [hcp]; exact hy0) hy

theorem heapFrom_half (key : α → K) (v : List α) : HeapFrom key (v.length / 2) v.length v := by
  intro c a b hc0 hcn hk _ _
  omega

theorem heapifyFrom_spec (key : α → K) (comp : α → α → Bool)
    (hcomp : ∀ a b, comp a b = decide (key b < key a)) (k : Nat) :
    ∀ (v : List α), k ≤ v.length → HeapFrom key k v.length v →
      HeapFrom key 0 v.length (heapifyFrom comp k v) ∧ (heapifyFrom comp k v).Perm v := by
  induction k with
  | zero => intro v _ h; exact ⟨h, List.Perm.refl _⟩
  | succ k ih =>
    intro v hk h
    obtain ⟨e1, e2, _⟩ := siftDown_basic key comp hcomp v.length v v.length k (le_refl _) (by omega)
    have hh : HeapFrom key k v.length (siftDown comp v.length v v.length k) := by
      apply siftDown_heap key comp hcomp v.length v v.length k k (le_refl _) (by omega)
        (le_refl _) (by omega)
      · intro c x y hc0 hcn hkp hp hx hy
        exact h c x y hc0 hcn (by omega) hx hy
      · intro c x y hk0 hkk
        omega
    simp only [heapifyFrom]
    obtain ⟨r1, r2⟩ := ih _ (by rw [e2]; omega) (by rw [e2]; exact hh)
    rw [e2] at r1
    exact ⟨r1, r2.trans e1⟩

theorem make_heap_spec (key : α → K) (comp : α → α → Bool)
    (hcomp : ∀ a b, comp a b = decide (key b < key a)) (v : List α) :
    HeapFrom key 0 v.length (std_make_heap comp v) ∧ (std_make_heap comp v).Perm v :=
  heapifyFrom_spec key comp hcomp (v.length / 2) v (Nat.div_le_self _ _) (heapFrom_half key v)

theorem heap_root_le (key : α → K) (v : List α) (n : Nat) (h : HeapFrom key 0 n v)
    (hn : n ≤ v.length) :
    ∀ c a x, c < n → v[0]? = some a → v[c]? = some x → key a ≤ key x := by
  intro c
  induction c using Nat.strong_induction_on with
  | _ c ih =>
    intro a x hc ha hx
    rcases Nat.eq_zero_or_pos c with h0 | h0
    · subst h0; rw [ha] at hx; cases hx; exact le_refl _
    · obtain ⟨y, hy⟩ := getElem?_some_of_lt v ((c - 1) / 2) (by omega)
      exact le_trans (ih ((c - 1) / 2) (by omega) a y (by omega) ha hy)
        (h c y x h0 hc (Nat.zero_le _) hy hx)

theorem pop_heap_spec (key : α → K) (comp : α → α → Bool)
    (hcomp : ∀ a b, comp a b = decide (key b < key a)) (v : List α) (hv : v ≠ [])
    (h : HeapFrom key 0 v.length v) :
    (std_pop_heap comp v).Perm v ∧ (std_pop_heap comp v).length = v.length ∧
      (std_pop_heap comp v)[v.length - 1]? = v[0]? ∧
      HeapFrom key 0 (v.length - 1) (std_pop_heap comp v) := by
  have hpos : 0 < v.length := List.length_pos.mpr hv
  unfold std_pop_heap
  split
  · rename_i h1
    have : v.length - 1 = 0 := by omega
    refine ⟨List.Perm.refl _, rfl, by rw [this], ?_⟩
    intro c a b hc0 hcn
    omega
  · rename_i h1
    have hsw : ∀ m, (swapAt v 0 (v.length - 1))[m]?
        = if m = v.length - 1 then v[0]? else if m = 0 then v[v.length - 1]? else v[m]? :=
      fun m => swapAt_getElem? v 0 (v.length - 1) m (by omega) (by omega)
    obtain ⟨e1, e2, e3⟩ := siftDown_basic key comp hcomp v.length (swapAt v 0 (v.length - 1))
      (v.length - 1) 0 (by rw [swapAt_length]; omega) (by omega)
    refine ⟨e1.trans (swapAt_perm _ _ _), by rw [e2, swapAt_length], ?_, ?_⟩
    · rw [e3 _ (le_refl _), hsw, if_pos rfl]
    · apply siftDown_heap key comp hcomp v.length (swapAt v 0 (v.length - 1)) (v.length - 1) 0 0
        (by rw [swapAt_length]; omega) (by omega) (le_refl _) (by omega)
      · intro c x y hc0 hcn _ hp hx hy
        rw [hsw, if_neg (by omega), if_neg hp] at hx
        rw [hsw, if_neg (by omega), if_neg (by omega)] at hy
        exact h c x y hc0 (by omega) (Nat.zero_le _) hx hy
      · intro c x y h0
        omega

theorem siftUp_perm (comp : α → α → Bool) (fuel : Nat) :
    ∀ (v : List α) (i : Nat), (siftUp comp fuel v i).Perm v := by
  induction fuel with
  | zero => intro v i; exact List.Perm.refl _
  | succ fuel ih =>
    intro v i
    simp only [siftUp]
    split
    · exact List.Perm.refl _
    · split
      · exact (ih _ _).trans (swapAt_perm _ _ _)
      · exact List.Perm.refl _

theorem siftUp_heap (key : α → K) (comp : α → α → Bool)
    (hcomp : ∀ a b, comp a b = decide (key b < key a)) (fuel : Nat) :
    ∀ (v : List α) (i : Nat), i < v.length → i ≤ fuel →
      (∀ c x y, 0 < c → c < v.length → c ≠ i →
        v[(c - 1) / 2]? = some x → v[c]? = some y → key x ≤ key y) →
      (∀ c x y, 0 < i → 0 < c → c < v.length → (c - 1) / 2 = i →
        v[(i - 1) / 2]? = some x → v[c]? = some y → key x ≤ key y) →
      HeapFrom key 0 v.length (siftUp comp fuel v i) := by
  induction fuel with
  | zero =>
    intro v i _ hf hA _
    have : i = 0 := by omega
    subst this
    intro c x y hc0 hcn _ hx hy
    exact hA c x y hc0 hcn (by omega) hx hy
  | succ fuel ih =>
    intro v i hi hf hA hB
    simp only [siftUp]
    split
    · rename_i h0
      subst h0
      intro c x y hc0 hcn _ hx hy
      exact hA c x y hc0 hcn (by omega) hx hy
    · rename_i h0
      obtain ⟨a, ha⟩ := getElem?_some_of_lt v i hi
      obtain ⟨q, hq⟩ := getElem?_some_of_lt v ((i - 1) / 2) (by omega)
      rw [compAt_eq comp v _ _ q a hq ha, hcomp]
      split
      · rename_i hlt
        have hlt : key a < key q := by simpa using hlt
        have hsw : ∀ m, (swapAt v ((i - 1) / 2) i)[m]?
            = if m = i then v[(i - 1) / 2]? else if m = (i - 1) / 2 then v[i]? else v[m]? :=
          fun m => swapAt_getElem? v ((i - 1) / 2) i m (by omega) hi
        have hlen := swapAt_length v ((i - 1) / 2) i
        rw [← hlen]
        apply ih (swapAt v ((i - 1) / 2) i) ((i - 1) / 2) (by rw [hlen]; omega) (by omega)
        · intro c x y hc0 hcn hcp hx hy
          rw [hlen] at hcn
          rw [hsw] at hx hy
          by_cases hci : c = i
          · subst hci
            rw [if_pos rfl, hq] at hy
            rw [if_neg (by omega), if_pos rfl, ha] at hx
            rw [← Option.some.inj hx, ← Option.some.inj hy]
            exact le_of_lt hlt
          · rw [if_neg hci, if_neg hcp] at hy
            by_cases h1 : (c - 1) / 2 = (i - 1) / 2
            · rw [if_neg (by omega), if_pos h1, ha] at hx
              rw [← Option.some.inj hx]
              exact le_trans (le_of_lt hlt) (hA c q y hc0 hcn hci (by rw [h1]; exact hq) hy)
            · by_cases h2 : (c - 1) / 2 = i
              · rw [if_pos h2, hq] at hx
                rw [← Option.some.inj hx]
                exact hB c q y (by omega) hc0 hcn h2 hq hy
              · rw [if_neg h2, if_neg h1] at hx
                exact hA c x y hc0 hcn hci hx hy
        · intro c x y hp0 hc0 hcn hcp hx hy
          rw [hlen] at hcn
          rw [hsw] at hx hy
          rw [if_neg (by omega), if_neg (by omega)] at hx
          have hqq : key x ≤ key q := hA ((i - 1) / 2) x q hp0 (by omega) (by omega) hx hq
          by_cases hci : c = i
          · rw [if_pos hci, hq] at hy
            rw [← Option.some.inj hy]; exact hqq
          · rw [if_neg hci, if_neg (by omega)] at hy
            exact le_trans hqq (hA c q y hc0 hcn hci (by rw [hcp]; exact hq) hy)
      · rename_i hlt
        have hle : key q ≤ key a := by simpa using hlt
        intro c x y hc0 hcn _ hx hy
        by_cases hci : c = i
        · subst hci
          rw [hq] at hx; rw [ha] at hy
          rw [← Option.some.inj hx, ← Option.some.inj hy]; exact hle
        · exact hA c x y hc0 hcn hci hx hy

theorem push_heap_spec (key : α → K) (comp : α → α → Bool)
    (hcomp : ∀ a b, comp a b = decide (key b < key a)) (v : List α)
    (h : HeapFrom key 0 (v.length - 1) v) :
    HeapFrom key 0 v.length (std_push_heap comp v) ∧ (std_push_heap comp v).Perm v := by
  refine ⟨?_, siftUp_perm comp _ _ _⟩
  unfold std_push_heap
  rcases Nat.eq_zero_or_pos v.length with h0 | h0
  · intro c a b hc0 hcn
    omega
  · apply siftUp_heap key comp hcomp v.length v (v.length - 1) (by omega) (by omega)
    · intro c x y hc0 hcn hci hx hy
      exact h c x y hc0 (by omega) (Nat.zero_le _) hx hy
    · intro c x y _ hc0 hcn hcp
      omega

end Heap

/-! ## The merging phase -/

theorem pending_length_pos (d : DeserializeIterator) : 0 < d.pending.length := by
  simp [DeserializeIterator.pending]

theorem reverse_next_of_live (init : List DeserializeIterator) (back : DeserializeIterator)
    (h : back.Live) :
    ∃ d1, back.incr = .ok () d1 ∧
      ((d1.isEnd_ = true ∧ back.pending = [back.value_] ∧
          ReverseMerger.next { deserializers_ := init ++ [back] }
            = .ok back.value_ { deserializers_ := init }) ∨
       (d1.Live ∧ back.pending = back.value_ :: d1.pending ∧
          ReverseMerger.next { deserializers_ := init ++ [back] }
            = .ok back.value_ { deserializers_ := init ++ [d1] })) := by
  obtain ⟨d1, h1, h2⟩ := incr_of_live back h
  refine ⟨d1, h1, ?_⟩
  rcases h2 with ⟨h2, h3⟩ | ⟨h2, h3⟩
  · left
    refine ⟨h2, h3, ?_⟩
    simp [ReverseMerger.next, ReverseMerger.hasNext, h1, DeserializeIterator.isEnd, h2,
      DeserializeIterator.deref]
  · right
    refine ⟨h2, h3, ?_⟩
    simp [ReverseMerger.next, ReverseMerger.hasNext, h1, DeserializeIterator.isEnd, h2.1,
      DeserializeIterator.deref]

/-- Draining a `ReverseMerger` whose cursors are all live: the loop ends normally with no
cursor left, having written the cursors' values, last cursor first. -/
theorem reverse_mergeLoop (fuel : Nat) :
    ∀ (ds : List DeserializeIterator) (out : List CInt), (∀ d ∈ ds, d.Live) →
      ((ds.map DeserializeIterator.pending).flatten).length ≤ fuel →
      mergeLoop ReverseMerger.cls fuel { deserializers_ := ds } out
        = some (.ok () ({ deserializers_ := [] },
            out ++ ((ds.map DeserializeIterator.pending).reverse).flatten)) := by
  induction fuel with
  | zero =>
    intro ds out _ hlen
    have hnil : ds = [] := by
      cases ds with
      | nil => rfl
      | cons d rest =>
        have := pending_length_pos d
        simp only [List.map_cons, List.flatten_cons, List.length_append] at hlen
        omega
    subst hnil
    simp [mergeLoop, ReverseMerger.cls, ReverseMerger.hasNext]
  | succ fuel ih =>
    intro ds out hlive hlen
    rcases List.eq_nil_or_concat ds with hnil | ⟨init, back, hds⟩
    · subst hnil
      simp [mergeLoop, ReverseMerger.cls, ReverseMerger.hasNext]
    · rw [List.concat_eq_append] at hds
      subst hds
      have hb : back.Live := hlive back (by simp)
      have hi : ∀ d ∈ init, d.Live := fun d hd => hlive d (by simp [hd])
      have hne : ReverseMerger.hasNext { deserializers_ := init ++ [back] } = true := by
        simp [ReverseMerger.hasNext]
      simp only [List.map_append, List.map_cons, List.map_nil, List.flatten_append,
        List.flatten_cons, List.flatten_nil, List.append_nil, List.length_append,
        List.reverse_append, List.reverse_cons, List.reverse_nil, List.nil_append,
        List.singleton_append] at hlen ⊢
      obtain ⟨d1, _, h⟩ := reverse_next_of_live init back hb
      rcases h with ⟨_, h3, h4⟩ | ⟨h2, h3, h4⟩
      · have hnext : ReverseMerger.cls.next { deserializers_ := init ++ [back] }
            = .ok back.value_ { deserializers_ := init } := h4
        simp only [mergeLoop]
        rw [show ReverseMerger.cls.hasNext { deserializers_ := init ++ [back] } = true from hne,
          if_pos rfl, hnext]
        simp only []
        have hpb := congrArg List.length h3
        simp only [List.length_cons, List.length_nil] at hpb
        rw [ih init _ hi (by omega), h3]
        simp
      · have hnext : ReverseMerger.cls.next { deserializers_ := init ++ [back] }
            = .ok back.value_ { deserializers_ := init ++ [d1] } := h4
        simp only [mergeLoop]
        rw [show ReverseMerger.cls.hasNext { deserializers_ := init ++ [back] } = true from hne,
          if_pos rfl, hnext]
        simp only []
        rw [ih (init ++ [d1]) _ (by
            intro d hd
            rcases List.mem_append.mp hd with hd | hd
            · exact hi d hd
            · simp at hd; subst hd; exact h2)
          (by
            have hpb := congrArg List.length h3
            simp only [List.length_cons] at hpb
            simp only [List.map_append, List.map_cons, List.map_nil, List.flatten_append,
              List.flatten_cons, List.flatten_nil, List.append_nil, List.length_append]
            omega), h3]
        simp


theorem compare_eq (a b : DeserializeIterator) :
    DeserializerCompare a b = decide (b.deref < a.deref) := rfl

theorem heapFrom_congr {α K : Type} [LinearOrder K] (key : α → K) (k n : Nat) (v w : List α)
    (hvw : ∀ m, m < n → w[m]? = v[m]?) (h : HeapFrom key k n v) : HeapFrom key k n w := by
  intro c a b hc0 hcn hk ha hb
  rw [hvw _ (by omega)] at ha
  rw [hvw _ hcn] at hb
  exact h c a b hc0 hcn hk ha hb

theorem sorted_pending_le (d : DeserializeIterator) (hs : d.pending.Sorted (· ≤ ·)) :
    ∀ y ∈ d.pending, d.value_ ≤ y := by
  intro y hy
  simp only [DeserializeIterator.pending, List.mem_cons] at hy
  rcases hy with hy | hy
  · rw [hy]
  · exact List.rel_of_sorted_cons hs y hy

/-- One call of `SortMerger::next` on a non-empty heap of live cursors with sorted pending
values: it returns normally a value that is a lower bound of all pending values, removes
exactly that value from the pending values, and re-establishes the invariant. -/
theorem sort_next_spec (ds : List DeserializeIterator) (hne : ds ≠ [])
    (hl : ∀ d ∈ ds, d.Live ∧ d.pending.Sorted (· ≤ ·)) (hh : IsMinHeap ds) :
    ∃ v ds1, SortMerger.next { deserializers_ := ds } = .ok v { deserializers_ := ds1 } ∧
      (∀ d ∈ ds1, d.Live ∧ d.pending.Sorted (· ≤ ·)) ∧ IsMinHeap ds1 ∧
      ((ds.map DeserializeIterator.pending).flatten).Perm
        (v :: (ds1.map DeserializeIterator.pending).flatten) ∧
      (∀ y ∈ (ds.map DeserializeIterator.pending).flatten, v ≤ y) := by
  obtain ⟨p1, p2, p3, p4⟩ :=
    pop_heap_spec DeserializeIterator.deref DeserializerCompare compare_eq ds hne hh
  have hpos : 0 < ds.length := List.length_pos.mpr hne
  rcases List.eq_nil_or_concat (std_pop_heap DeserializerCompare ds) with hnil | ⟨init, back, hv⟩
  · rw [hnil] at p2; simp at p2; omega
  rw [List.concat_eq_append] at hv
  rw [hv] at p1 p2 p3 p4
  have hilen : init.length = ds.length - 1 := by simp at p2; omega
  have htop : ds[0]? = some back := by
    rw [← p3, ← hilen]; simp
  have hback : back ∈ ds := List.mem_iff_getElem?.mpr ⟨0, htop⟩
  have hinit : ∀ d ∈ init, d ∈ ds := fun d hd => p1.mem_iff.mp (by simp [hd])
  have hheap : HeapFrom DeserializeIterator.deref 0 init.length init := by
    rw [hilen]
    apply heapFrom_congr _ _ _ _ _ ?_ p4
    intro m hm
    rw [List.getElem?_append_left (by omega)]
  have hmin : ∀ d ∈ ds, back.value_ ≤ d.value_ := by
    intro d hd
    obtain ⟨c, hc⟩ := List.mem_iff_getElem?.mp hd
    have hcl : c < ds.length := (List.getElem?_eq_some_iff.mp hc).1
    exact heap_root_le DeserializeIterator.deref ds ds.length hh (le_refl _) c back d hcl htop hc
  have hlow : ∀ y ∈ (ds.map DeserializeIterator.pending).flatten, back.value_ ≤ y := by
    intro y hy
    obtain ⟨l, hl1, hl2⟩ := List.mem_flatten.mp hy
    obtain ⟨d, hd, rfl⟩ := List.mem_map.mp hl1
    exact le_trans (hmin d hd) (sorted_pending_le d (hl d hd).2 y hl2)
  have hperm : ((ds.map DeserializeIterator.pending).flatten).Perm
      ((init.map DeserializeIterator.pending).flatten ++ back.pending) := by
    have := (p1.symm.map DeserializeIterator.pending).flatten
    simpa using this
  have hhas : SortMerger.hasNext { deserializers_ := ds } = true := by
    cases ds with
    | nil => exact absurd rfl hne
    | cons _ _ => rfl
  obtain ⟨d1, h1, h2⟩ := incr_of_live back (hl back hback).1
  rcases h2 with ⟨h2, h3⟩ | ⟨h2, h3⟩
  · refine ⟨back.value_, init, ?_, fun d hd => hl d (hinit d hd), hheap, ?_, hlow⟩
    · simp [SortMerger.next, hhas, hv, h1, DeserializeIterator.isEnd, h2, DeserializeIterator.deref]
    · rw [h3] at hperm
      exact hperm.trans (List.perm_append_comm)
  · obtain ⟨q1, q2⟩ := push_heap_spec DeserializeIterator.deref DeserializerCompare compare_eq
      (init ++ [d1]) (by
        have : (init ++ [d1]).length - 1 = init.length := by simp
        rw [this]
        apply heapFrom_congr _ _ _ _ _ ?_ hheap
        intro m hm
        rw [List.getElem?_append_left hm])
    refine ⟨back.value_, std_push_heap DeserializerCompare (init ++ [d1]), ?_, ?_, ?_, ?_, hlow⟩
    · simp [SortMerger.next, hhas, hv, h1, DeserializeIterator.isEnd, h2.1,
        DeserializeIterator.deref]
    · intro d hd
      have hd := q2.mem_iff.mp hd
      rcases List.mem_append.mp hd with hd | hd
      · exact hl d (hinit d hd)
      · simp only [List.mem_singleton] at hd
        subst hd
        refine ⟨h2, ?_⟩
        have := (hl back hback).2
        rw [h3] at this
        exact this.of_cons
    · unfold IsMinHeap
      rw [q2.length_eq]
      exact q1
    · rw [h3] at hperm
      have e := (q2.map DeserializeIterator.pending).flatten
      simp only [List.map_append, List.map_cons, List.map_nil, List.flatten_append,
        List.flatten_cons, List.flatten_nil, List.append_nil] at e
      exact hperm.trans (List.perm_middle.trans (e.symm.cons _))

/-- Draining a `SortMerger` that satisfies the invariant: the loop ends normally with no
cursor left, having written a sorted arrangement of all pending values. -/
theorem sort_mergeLoop (fuel : Nat) :
    ∀ (ds : List DeserializeIterator) (out : List CInt),
      (∀ d ∈ ds, d.Live ∧ d.pending.Sorted (· ≤ ·)) → IsMinHeap ds →
      ((ds.map DeserializeIterator.pending).flatten).length ≤ fuel →
      ∃ L, mergeLoop SortMerger.cls fuel { deserializers_ := ds } out
          = some (.ok () ({ deserializers_ := [] }, out ++ L)) ∧
        L.Sorted (· ≤ ·) ∧ L.Perm (ds.map DeserializeIterator.pending).flatten := by
  induction fuel with
  | zero =>
    intro ds out _ _ hlen
    have hnil : ds = [] := by
      cases ds with
      | nil => rfl
      | cons d rest =>
        have := pending_length_pos d
        simp only [List.map_cons, List.flatten_cons, List.length_append] at hlen
        omega
    subst hnil
    exact ⟨[], by simp [mergeLoop, SortMerger.cls, SortMerger.hasNext], List.sorted_nil,
      List.Perm.refl _⟩
  | succ fuel ih =>
    intro ds out hl hh hlen
    by_cases hnil : ds = []
    · subst hnil
      exact ⟨[], by simp [mergeLoop, SortMerger.cls, SortMerger.hasNext], List.sorted_nil,
        List.Perm.refl _⟩
    · obtain ⟨v, ds1, e1, e2, e3, e4, e5⟩ := sort_next_spec ds hnil hl hh
      have hhas : SortMerger.cls.hasNext { deserializers_ := ds } = true := by
        cases ds with
        | nil => exact absurd rfl hnil
        | cons _ _ => rfl
      have hnext : SortMerger.cls.next { deserializers_ := ds }
          = .ok v { deserializers_ := ds1 } := e1
      obtain ⟨L, r1, r2, r3⟩ := ih ds1 (out ++ [v]) e2 e3 (by
        have := e4.length_eq
        simp only [List.length_cons] at this
        omega)
      refine ⟨v :: L, ?_, ?_, ?_⟩
      · simp only [mergeLoop]
        rw [hhas, if_pos rfl, hnext]
        simp only []
        rw [r1]; simp
      · refine List.sorted_cons.mpr ⟨?_, r2⟩
        intro y hy
        exact e5 y (e4.mem_iff.mpr (List.mem_cons_of_mem _ (r3.mem_iff.mp hy)))
      · exact (r3.cons v).trans e4.symm

/-! ## The whole run -/

theorem blocks_flatten (c : Nat) (hc : 1 ≤ c) (l : List CInt) : (blocks c l).flatten = l := by
  suffices H : ∀ n, ∀ l : List CInt, l.length = n → (blocks c l).flatten = l from H _ l rfl
  intro n
  induction n using Nat.strong_induction_on with
  | _ n ih =>
    intro l hlen
    by_cases hnil : l = []
    · subst hnil; rw [blocks_nil]; rfl
    · have hpos : 0 < l.length := List.length_pos.mpr hnil
      rw [blocks_cons c hc l hnil, List.flatten_cons,
        ih (l.drop c).length (by rw [List.length_drop]; omega) (l.drop c) rfl,
        List.take_append_drop]

theorem blocks_mem (c : Nat) (hc : 1 ≤ c) (l : List CInt) :
    ∀ b ∈ blocks c l, b ≠ [] ∧ b.length ≤ c := by
  suffices H : ∀ n, ∀ l : List CInt, l.length = n → ∀ b ∈ blocks c l, b ≠ [] ∧ b.length ≤ c
    from H _ l rfl
  intro n
  induction n using Nat.strong_induction_on with
  | _ n ih =>
    intro l hlen b hb
    by_cases hnil : l = []
    · subst hnil; rw [blocks_nil] at hb; simp at hb
    · have hpos : 0 < l.length := List.length_pos.mpr hnil
      rw [blocks_cons c hc l hnil] at hb
      rcases List.mem_cons.mp hb with hb | hb
      · subst hb
        refine ⟨?_, by simp⟩
        intro e
        rcases List.take_eq_nil_iff.mp e with h | h
        · omega
        · exact hnil h
      · exact ih (l.drop c).length (by rw [List.length_drop]; omega) (l.drop c) rfl b hb

theorem blocks_length (c : Nat) (l : List CInt) : (blocks c l).length = (l.length + c - 1) / c := by
  simp [blocks]

theorem blocks_getElem (c : Nat) (l : List CInt) (i : Nat) (hi : i < (blocks c l).length) :
    (blocks c l)[i] = (l.drop (i * c)).take c := by
  simp [blocks]

theorem chunkCursor_ok (chunk : List CInt) :
    DeserializeIterator.ofStream { data := encode chunk, failbit := false }
      = .ok () (chunkCursor chunk) := ofStream_ok _

theorem chunkCursor_live (chunk : List CInt) (h : chunk ≠ []) :
    (chunkCursor chunk).Live ∧ (chunkCursor chunk).pending = chunk := by
  obtain ⟨d, h0, h1⟩ := ofStream_of_good (encode chunk)
  have hd : chunkCursor chunk = d := by
    unfold chunkCursor; rw [h0]; rfl
  rw [decodeAll_encode] at h1
  rw [hd]
  rcases h1 with ⟨_, h2⟩ | h1
  · exact absurd h2 h
  · exact h1

theorem chunkCursor_nil : (chunkCursor []).isEnd_ = true := by
  obtain ⟨d, h0, h1⟩ := ofStream_of_good (encode [])
  have hd : chunkCursor [] = d := by
    unfold chunkCursor; rw [h0]; rfl
  rw [hd]
  rcases h1 with ⟨h1, _⟩ | ⟨_, h2⟩
  · exact h1
  · rw [decodeAll_encode] at h2
    simp [DeserializeIterator.pending] at h2

theorem tempNames_length (k m : Nat) : (tempNames k m).length = m := by
  simp [tempNames]

/-- The cursors `run` constructs after partitioning: one per spill file, in creation order,
each on the chunk that was written to its file. -/
theorem openLoop_storeChunks (w : World) (chunks : List (List CInt)) :
    openLoop (storeChunks w chunks) (tempNames w.filenumber chunks.length)
        (List.range chunks.length)
        (List.replicate chunks.length DeserializeIterator.default)
      = .ok () (chunks.map chunkCursor) := by
  have h := openLoop_eq (storeChunks w chunks) (tempNames w.filenumber chunks.length)
  rw [tempNames_length] at h
  rw [h]
  congr 1
  apply List.ext_getElem
  · simp [tempNames_length]
  · intro i h1 h2
    have hi : i < chunks.length := by simpa using h2
    simp only [List.getElem_map]
    have hi2 : i < (tempNames w.filenumber chunks.length).length := by
      rw [tempNames_length]; exact hi
    have hname : (tempNames w.filenumber chunks.length)[i]
        = "file" ++ toString (w.filenumber + i) ++ ".tmp" := by
      simp [tempNames]
    rw [hname]
    simp only [World.openIn, storeChunks_files chunks w i hi, chunkCursor]

/-- Shape of `run` on a fresh object with a chunk cap of at least one and enough fuel:
partitioning ends in the state `partitioned`, all files open, and what remains is the merge
loop on the cursors of the prepared blocks. -/
theorem run_eq (Mg : MergerClass) (prepare : List CInt → List CInt) (fuel : Nat)
    (w : World) (input : List CInt) (size cap : Nat) (hcap : 1 ≤ cap)
    (hfuel : input.length ≤ fuel) :
    ExternalAlgoritm.run Mg prepare fuel ⟨w, ExternalAlgoritm.new input size cap⟩
      = match mergeLoop Mg fuel (Mg.ctor (((blocks cap input).map prepare).map chunkCursor)) [] with
        | none => none
        | some (.thrown c mo) => some (.thrown c
            { world := storeChunks w ((blocks cap input).map prepare),
              self := { begin_ := [], size_ := size, maxObjectsInMemory_ := cap, out_ := mo.2,
                        countOfFiles_ := (blocks cap input).length,
                        filenames_ := tempNames w.filenumber (blocks cap input).length } })
        | some (.ok _ mo) => some (.ok ()
            { world := storeChunks w ((blocks cap input).map prepare),
              self := { begin_ := [], size_ := size, maxObjectsInMemory_ := cap, out_ := mo.2,
                        countOfFiles_ := (blocks cap input).length,
                        filenames_ := tempNames w.filenumber (blocks cap input).length } }) := by
  unfold ExternalAlgoritm.run
  rw [partitionLoop_eq prepare fuel _ hcap hfuel]
  simp only [partitioned, ExternalAlgoritm.new, List.nil_append, Nat.zero_add]
  have h := openLoop_storeChunks w ((blocks cap input).map prepare)
  simp only [List.length_map] at h
  rw [h]

theorem std_sort_perm (v : List CInt) : (std_sort v).Perm v :=
  List.perm_insertionSort _ v

theorem std_sort_sorted (v : List CInt) : (std_sort v).Sorted (· ≤ ·) :=
  List.sorted_insertionSort _ v

theorem std_sort_ne_nil (v : List CInt) (h : v ≠ []) : std_sort v ≠ [] := by
  intro e
  have := (std_sort_perm v).length_eq
  rw [e] at this
  exact h (List.length_eq_zero.mp this.symm)

theorem flatten_map_perm (f : List CInt → List CInt) (hf : ∀ b, (f b).Perm b)
    (L : List (List CInt)) : ((L.map f).flatten).Perm L.flatten := by
  induction L with
  | nil => exact List.Perm.refl _
  | cons b rest ih =>
    simp only [List.map_cons, List.flatten_cons]
    exact (hf b).append ih

theorem map_pending_chunkCursor (chunks : List (List CInt)) (h : ∀ c ∈ chunks, c ≠ []) :
    (chunks.map chunkCursor).map DeserializeIterator.pending = chunks := by
  rw [List.map_map]
  conv_rhs => rw [← List.map_id chunks]
  apply List.map_congr_left
  intro c hc
  exact (chunkCursor_live c (h c hc)).2

/-- The state in which `run` of an `ExternalSort` object ends: the run returns normally,
the prepared blocks are on disk, and the output holds the sorted input. -/
theorem sort_run (fuel : Nat) (w : World) (input : List CInt) (size cap : Nat)
    (hcap : 1 ≤ cap) (hfuel : input.length ≤ fuel) :
    ExternalSort.run fuel ⟨w, ExternalAlgoritm.new input size cap⟩
      = some (.ok ()
          { world := storeChunks w ((blocks cap input).map ExternalSort.prepare),
            self := { begin_ := [], size_ := size, maxObjectsInMemory_ := cap,
                      out_ := std_sort input,
                      countOfFiles_ := (blocks cap input).length,
                      filenames_ := tempNames w.filenumber (blocks cap input).length } }) := by
  unfold ExternalSort.run
  rw [run_eq _ _ _ _ _ _ _ hcap hfuel]
  have hchunks : ∀ c ∈ (blocks cap input).map ExternalSort.prepare, c ≠ [] := by
    intro c hc
    obtain ⟨b, hb, rfl⟩ := List.mem_map.mp hc
    exact std_sort_ne_nil b (blocks_mem cap hcap input b hb).1
  obtain ⟨m1, m2⟩ := make_heap_spec DeserializeIterator.deref DeserializerCompare compare_eq
    (((blocks cap input).map ExternalSort.prepare).map chunkCursor)
  have hperm : ((List.map DeserializeIterator.pending (std_make_heap DeserializerCompare
      (((blocks cap input).map ExternalSort.prepare).map chunkCursor))).flatten).Perm input := by
    have e1 := (m2.map DeserializeIterator.pending).flatten
    rw [map_pending_chunkCursor _ hchunks] at e1
    have e2 := flatten_map_perm ExternalSort.prepare std_sort_perm (blocks cap input)
    rw [blocks_flatten cap hcap] at e2
    exact e1.trans e2
  obtain ⟨L, r1, r2, r3⟩ := sort_mergeLoop fuel
    (std_make_heap DeserializerCompare (((blocks cap input).map ExternalSort.prepare).map chunkCursor))
    [] (by
      intro d hd
      have hd := m2.mem_iff.mp hd
      obtain ⟨c, hc, rfl⟩ := List.mem_map.mp hd
      obtain ⟨l1, l2⟩ := chunkCursor_live c (hchunks c hc)
      refine ⟨l1, ?_⟩
      rw [l2]
      obtain ⟨b, _, rfl⟩ := List.mem_map.mp hc
      exact std_sort_sorted b)
    (by unfold IsMinHeap; rw [m2.length_eq]; exact m1)
    (by rw [hperm.length_eq]; exact hfuel)
  have hL : L = std_sort input :=
    List.eq_of_perm_of_sorted ((r3.trans hperm).trans (std_sort_perm input).symm) r2
      (std_sort_sorted input)
  have hm : mergeLoop SortMerger.cls fuel
      (SortMerger.cls.ctor (((blocks cap input).map ExternalSort.prepare).map chunkCursor)) []
      = some (.ok () ({ deserializers_ := [] }, std_sort input)) := by
    rw [← hL]
    simpa using r1
  rw [hm]

/-- The state in which `run` of an `ExternalReverse` object ends: the run returns normally,
the prepared blocks are on disk, and the output holds the reversed input. -/
theorem reverse_run (fuel : Nat) (w : World) (input : List CInt) (size cap : Nat)
    (hcap : 1 ≤ cap) (hfuel : input.length ≤ fuel) :
    ExternalReverse.run fuel ⟨w, ExternalAlgoritm.new input size cap⟩
      = some (.ok ()
          { world := storeChunks w ((blocks cap input).map ExternalReverse.prepare),
            self := { begin_ := [], size_ := size, maxObjectsInMemory_ := cap,
                      out_ := input.reverse,
                      countOfFiles_ := (blocks cap input).length,
                      filenames_ := tempNames w.filenumber (blocks cap input).length } }) := by
  unfold ExternalReverse.run
  rw [run_eq _ _ _ _ _ _ _ hcap hfuel]
  have hchunks : ∀ c ∈ (blocks cap input).map ExternalReverse.prepare, c ≠ [] := by
    intro c hc
    obtain ⟨b, hb, rfl⟩ := List.mem_map.mp hc
    have := (blocks_mem cap hcap input b hb).1
    simpa [ExternalReverse.prepare, std_reverse] using this
  have hpend := map_pending_chunkCursor _ hchunks
  have hrev : ((List.map DeserializeIterator.pending
      (((blocks cap input).map ExternalReverse.prepare).map chunkCursor)).reverse).flatten
      = input.reverse := by
    rw [hpend]
    have := List.reverse_flatten (blocks cap input)
    rw [blocks_flatten cap hcap] at this
    rw [this]
    rfl
  have hm := reverse_mergeLoop fuel
    (((blocks cap input).map ExternalReverse.prepare).map chunkCursor) []
    (by
      intro d hd
      obtain ⟨c, hc, rfl⟩ := List.mem_map.mp hd
      exact (chunkCursor_live c (hchunks c hc)).1)
    (by
      rw [hpend]
      have e := (flatten_map_perm ExternalReverse.prepare (fun b => List.reverse_perm b)
        (blocks cap input)).length_eq
      rw [blocks_flatten cap hcap] at e
      rw [e]; exact hfuel)
  rw [hrev, List.nil_append] at hm
  have hm2 : mergeLoop ReverseMerger.cls fuel
      (ReverseMerger.cls.ctor (((blocks cap input).map ExternalReverse.prepare).map chunkCursor)) []
      = some (.ok () ({ deserializers_ := [] }, input.reverse)) := hm
  rw [hm2]

/-! ## Claims about `run` -/

/-- C1: for every input and every chunk cap of at least one, `run` of an `ExternalSort`
object returns normally (given fuel for as many iterations as there are input values) and
the sequence it has written to the output is non-decreasing. -/
theorem C1_sort_output_sorted (input : List CInt) (size cap fuel : Nat) (w : World)
    (hcap : 1 ≤ cap) (hfuel : input.length ≤ fuel) :
    ∃ s, ExternalSort.run fuel ⟨w, ExternalAlgoritm.new input size cap⟩ = some (.ok () s)
      ∧ s.self.out_.Sorted (· ≤ ·) :=
  ⟨_, sort_run fuel w input size cap hcap hfuel, std_sort_sorted input⟩

/-- Witness for C1 on the input `5 3 1 4 2` with chunk cap 2. -/
theorem C1_sort_output_sorted_witness :
    1 ≤ 2 ∧ sampleInput.length ≤ 5 ∧
      ∃ s, ExternalSort.run 5 ⟨World.initial, ExternalAlgoritm.new sampleInput 5 2⟩
          = some (.ok () s) ∧ s.self.out_.Sorted (· ≤ ·) :=
  ⟨by decide, by decide,
    C1_sort_output_sorted sampleInput 5 2 5 World.initial (by decide) (by decide)⟩

/-- C2: for every input and every chunk cap of at least one, under both `ExternalSort` and
`ExternalReverse`, `run` returns normally and the multiset of the values it has written to
the output equals the multiset of the input values. -/
theorem C2_output_multiset (input : List CInt) (size cap fuel : Nat) (w : World)
    (hcap : 1 ≤ cap) (hfuel : input.length ≤ fuel) :
    (∃ s, ExternalSort.run fuel ⟨w, ExternalAlgoritm.new input size cap⟩ = some (.ok () s)
        ∧ (s.self.out_ : Multiset CInt) = (input : Multiset CInt))
      ∧ (∃ s, ExternalReverse.run fuel ⟨w, ExternalAlgoritm.new input size cap⟩
          = some (.ok () s)
        ∧ (s.self.out_ : Multiset CInt) = (input : Multiset CInt)) :=
  ⟨⟨_, sort_run fuel w input size cap hcap hfuel, Multiset.coe_eq_coe.mpr (std_sort_perm input)⟩,
   ⟨_, reverse_run fuel w input size cap hcap hfuel,
      Multiset.coe_eq_coe.mpr (List.reverse_perm input)⟩⟩

/-- Witness for C2 on the input `5 3 1 4 2` with chunk cap 2. -/
theorem C2_output_multiset_witness :
    1 ≤ 2 ∧ sampleInput.length ≤ 5 ∧
      ((∃ s, ExternalSort.run 5 ⟨World.initial, ExternalAlgoritm.new sampleInput 5 2⟩
            = some (.ok () s)
          ∧ (s.self.out_ : Multiset CInt) = (sampleInput : Multiset CInt))
        ∧ (∃ s, ExternalReverse.run 5 ⟨World.initial, ExternalAlgoritm.new sampleInput 5 2⟩
            = some (.ok () s)
          ∧ (s.self.out_ : Multiset CInt) = (sampleInput : Multiset CInt))) :=
  ⟨by decide, by decide,
    C2_output_multiset sampleInput 5 2 5 World.initial (by decide) (by decide)⟩

/-- C3: for every input and every chunk cap of at least one, `run` of an `ExternalReverse`
object returns normally and the sequence it has written to the output is the input read
back to front. -/
theorem C3_reverse_output (input : List CInt) (size cap fuel : Nat) (w : World)
    (hcap : 1 ≤ cap) (hfuel : input.length ≤ fuel) :
    ∃ s, ExternalReverse.run fuel ⟨w, ExternalAlgoritm.new input size cap⟩ = some (.ok () s)
      ∧ s.self.out_ = input.reverse :=
  ⟨_, reverse_run fuel w input size cap hcap hfuel, rfl⟩

/-- Witness for C3 on the input `5 3 1 4 2` with chunk cap 2. -/
theorem C3_reverse_output_witness :
    1 ≤ 2 ∧ sampleInput.length ≤ 5 ∧
      ∃ s, ExternalReverse.run 5 ⟨World.initial, ExternalAlgoritm.new sampleInput 5 2⟩
          = some (.ok () s) ∧ s.self.out_ = sampleInput.reverse :=
  ⟨by decide, by decide,
    C3_reverse_output sampleInput 5 2 5 World.initial (by decide) (by decide)⟩

/-- C4: for every input and every two chunk caps `c1`, `c2` of at least one, `run` of an
`ExternalSort` object writes the same output sequence with cap `c1` as with cap `c2`, and so
does `run` of an `ExternalReverse` object. -/
theorem C4_chunk_cap_invariance (input : List CInt) (size c1 c2 fuel : Nat) (w : World)
    (h1 : 1 ≤ c1) (h2 : 1 ≤ c2) (hfuel : input.length ≤ fuel) :
    (∃ s1 s2, ExternalSort.run fuel ⟨w, ExternalAlgoritm.new input size c1⟩ = some (.ok () s1)
        ∧ ExternalSort.run fuel ⟨w, ExternalAlgoritm.new input size c2⟩ = some (.ok () s2)
        ∧ s1.self.out_ = s2.self.out_)
      ∧ (∃ s1 s2,
          ExternalReverse.run fuel ⟨w, ExternalAlgoritm.new input size c1⟩ = some (.ok () s1)
        ∧ ExternalReverse.run fuel ⟨w, ExternalAlgoritm.new input size c2⟩ = some (.ok () s2)
        ∧ s1.self.out_ = s2.self.out_) :=
  ⟨⟨_, _, sort_run fuel w input size c1 h1 hfuel, sort_run fuel w input size c2 h2 hfuel, rfl⟩,
   ⟨_, _, reverse_run fuel w input size c1 h1 hfuel, reverse_run fuel w input size c2 h2 hfuel,
      rfl⟩⟩

/-- Witness for C4 on the input `5 3 1 4 2` with chunk caps 1 and 5. -/
theorem C4_chunk_cap_invariance_witness :
    1 ≤ 1 ∧ 1 ≤ 5 ∧ sampleInput.length ≤ 5 ∧
      ((∃ s1 s2,
          ExternalSort.run 5 ⟨World.initial, ExternalAlgoritm.new sampleInput 5 1⟩
            = some (.ok () s1)
        ∧ ExternalSort.run 5 ⟨World.initial, ExternalAlgoritm.new sampleInput 5 5⟩
            = some (.ok () s2)
        ∧ s1.self.out_ = s2.self.out_)
      ∧ (∃ s1 s2,
          ExternalReverse.run 5 ⟨World.initial, ExternalAlgoritm.new sampleInput 5 1⟩
            = some (.ok () s1)
        ∧ ExternalReverse.run 5 ⟨World.initial, ExternalAlgoritm.new sampleInput 5 5⟩
            = some (.ok () s2)
        ∧ s1.self.out_ = s2.self.out_)) :=
  ⟨by decide, by decide, by decide,
    C4_chunk_cap_invariance sampleInput 5 1 5 5 World.initial (by decide) (by decide)
      (by decide)⟩

theorem run_empty (Mg : MergerClass) (prepare : List CInt → List CInt)
    (hctor : Mg.hasNext (Mg.ctor []) = false) (size cap fuel : Nat) (w : World) :
    ExternalAlgoritm.run Mg prepare fuel ⟨w, ExternalAlgoritm.new [] size cap⟩
      = some (.ok () ⟨w, ExternalAlgoritm.new [] size cap⟩) := by
  have hp : partitionLoop prepare fuel ⟨w, ExternalAlgoritm.new [] size cap⟩
      = some ⟨w, ExternalAlgoritm.new [] size cap⟩ := by
    cases fuel <;> simp [partitionLoop, ExternalAlgoritm.new]
  have hm : mergeLoop Mg fuel (Mg.ctor []) [] = some (.ok () (Mg.ctor [], [])) := by
    cases fuel <;> simp [mergeLoop, hctor]
  simp only [ExternalAlgoritm.run, hp]
  simp only [ExternalAlgoritm.new, List.range_zero, List.replicate_zero, openLoop, hm]

/-- C5: on the empty input, for every chunk cap (zero included) and under both strategies,
`run` returns normally having created no spill file (`countOfFiles_` is zero, `filenames_`
is empty, the files on disk and the name counter are untouched) and having written nothing
to the output. -/
theorem C5_empty_input (size cap fuel : Nat) (w : World) :
    (∃ s, ExternalSort.run fuel ⟨w, ExternalAlgoritm.new [] size cap⟩ = some (.ok () s)
        ∧ s.self.countOfFiles_ = 0 ∧ s.self.filenames_ = [] ∧ s.self.out_ = []
        ∧ s.world.files = w.files ∧ s.world.filenumber = w.filenumber)
      ∧ (∃ s, ExternalReverse.run fuel ⟨w, ExternalAlgoritm.new [] size cap⟩ = some (.ok () s)
        ∧ s.self.countOfFiles_ = 0 ∧ s.self.filenames_ = [] ∧ s.self.out_ = []
        ∧ s.world.files = w.files ∧ s.world.filenumber = w.filenumber) :=
  ⟨⟨_, run_empty SortMerger.cls ExternalSort.prepare rfl size cap fuel w, rfl, rfl, rfl, rfl, rfl⟩,
   ⟨_, run_empty ReverseMerger.cls ExternalReverse.prepare rfl size cap fuel w,
      rfl, rfl, rfl, rfl, rfl⟩⟩

theorem blocks_single (cap : Nat) (input : List CInt) (hne : input ≠ [])
    (hlen : input.length ≤ cap) : blocks cap input = [input] := by
  have hpos : 0 < input.length := List.length_pos.mpr hne
  rw [blocks_cons cap (by omega) input hne, List.take_of_length_le hlen,
    List.drop_eq_nil_of_le hlen, blocks_nil]

/-- C6 fails on the empty input: its length is at most the chunk cap 1, yet `run` creates
no spill file rather than exactly one. -/
theorem C6_counterexample :
    ([] : List CInt).length ≤ 1 ∧
      ∃ s, ExternalSort.run 0 ⟨World.initial, ExternalAlgoritm.new [] 0 1⟩ = some (.ok () s)
        ∧ s.self.countOfFiles_ = 0 ∧ s.self.filenames_ = [] ∧ s.self.countOfFiles_ ≠ 1 :=
  ⟨by decide, _, run_empty SortMerger.cls ExternalSort.prepare rfl 0 1 0 World.initial,
    rfl, rfl, by decide⟩

/-- C6 (amended): for every non-empty input whose length is at most the chunk cap, under
both strategies, `run` returns normally having created exactly one spill file (one recorded
name, the file of that name holding the prepared input, every other file untouched), and the
output equals the in-memory transform (`prepare`, that is `std::sort` or `std::reverse`)
applied to the whole input. -/
theorem C6_single_chunk (input : List CInt) (size cap fuel : Nat) (w : World)
    (hne : input ≠ []) (hlen : input.length ≤ cap) (hfuel : input.length ≤ fuel) :
    (∃ s, ExternalSort.run fuel ⟨w, ExternalAlgoritm.new input size cap⟩ = some (.ok () s)
        ∧ s.self.countOfFiles_ = 1 ∧ s.self.filenames_ = [(tempFilename w).1]
        ∧ s.world.files (tempFilename w).1 = some (encode (ExternalSort.prepare input))
        ∧ (∀ name, name ≠ (tempFilename w).1 → s.world.files name = w.files name)
        ∧ s.self.out_ = ExternalSort.prepare input)
      ∧ (∃ s, ExternalReverse.run fuel ⟨w, ExternalAlgoritm.new input size cap⟩
          = some (.ok () s)
        ∧ s.self.countOfFiles_ = 1 ∧ s.self.filenames_ = [(tempFilename w).1]
        ∧ s.world.files (tempFilename w).1 = some (encode (ExternalReverse.prepare input))
        ∧ (∀ name, name ≠ (tempFilename w).1 → s.world.files name = w.files name)
        ∧ s.self.out_ = ExternalReverse.prepare input) := by
  have hcap : 1 ≤ cap := by
    have := List.length_pos.mpr hne
    omega
  have hb := blocks_single cap input hne hlen
  refine ⟨⟨_, sort_run fuel w input size cap hcap hfuel, ?_⟩,
    ⟨_, reverse_run fuel w input size cap hcap hfuel, ?_⟩⟩
  · simp only [hb]
    refine ⟨rfl, by simp [tempNames, tempFilename, List.range_succ],
      by simp [storeChunks, World.store], ?_, rfl⟩
    intro name hname
    have hname2 : name ≠ "file" ++ toString w.filenumber ++ ".tmp" := hname
    simp [storeChunks, World.store, hname2, tempFilename]
  · simp only [hb]
    refine ⟨rfl, by simp [tempNames, tempFilename, List.range_succ],
      by simp [storeChunks, World.store], ?_, rfl⟩
    intro name hname
    have hname2 : name ≠ "file" ++ toString w.filenumber ++ ".tmp" := hname
    simp [storeChunks, World.store, hname2, tempFilename]

/-- Witness for the amended C6 on the input `5 3 1 4 2` with chunk cap 5. -/
theorem C6_single_chunk_witness :
    sampleInput ≠ [] ∧ sampleInput.length ≤ 5 ∧ sampleInput.length ≤ 5 ∧
    ((∃ s, ExternalSort.run 5 ⟨World.initial, ExternalAlgoritm.new sampleInput 5 5⟩
          = some (.ok () s)
        ∧ s.self.countOfFiles_ = 1 ∧ s.self.filenames_ = [(tempFilename World.initial).1]
        ∧ s.world.files (tempFilename World.initial).1
            = some (encode (ExternalSort.prepare sampleInput))
        ∧ (∀ name, name ≠ (tempFilename World.initial).1
            → s.world.files name = World.initial.files name)
        ∧ s.self.out_ = ExternalSort.prepare sampleInput)
      ∧ (∃ s, ExternalReverse.run 5 ⟨World.initial, ExternalAlgoritm.new sampleInput 5 5⟩
          = some (.ok () s)
        ∧ s.self.countOfFiles_ = 1 ∧ s.self.filenames_ = [(tempFilename World.initial).1]
        ∧ s.world.files (tempFilename World.initial).1
            = some (encode (ExternalReverse.prepare sampleInput))
        ∧ (∀ name, name ≠ (tempFilename World.initial).1
            → s.world.files name = World.initial.files name)
        ∧ s.self.out_ = ExternalReverse.prepare sampleInput)) :=
  ⟨by decide, by decide, by decide,
    C6_single_chunk sampleInput 5 5 5 World.initial (by decide) (by decide) (by decide)⟩

/-- After partitioning a fresh object, the `i`-th recorded name is the `i`-th name handed
out by `tempFilename`, and the file of that name holds the prepared `i`-th block. -/
theorem partitioned_files (prepare : List CInt → List CInt) (input : List CInt)
    (size cap : Nat) (w : World) (i : Nat) (hi : i < (input.length + cap - 1) / cap) :
    (partitioned prepare ⟨w, ExternalAlgoritm.new input size cap⟩).self.filenames_[i]?
        = some ("file" ++ toString (w.filenumber + i) ++ ".tmp")
      ∧ (partitioned prepare ⟨w, ExternalAlgoritm.new input size cap⟩).world.files
          ("file" ++ toString (w.filenumber + i) ++ ".tmp")
        = some (encode (prepare ((input.drop (i * cap)).take cap))) := by
  have hi1 : i < (blocks cap input).length := by rw [blocks_length]; exact hi
  have hi2 : i < ((blocks cap input).map prepare).length := by simpa using hi1
  constructor
  · simp only [partitioned, ExternalAlgoritm.new, List.nil_append, tempNames]
    rw [List.getElem?_eq_getElem (by simpa using hi1)]
    simp
  · simp only [partitioned, ExternalAlgoritm.new]
    rw [storeChunks_files _ w i hi2]
    simp only [List.getElem_map, blocks_getElem]

/-- C7: for every input and every chunk cap `c` of at least one, the partitioning loop of
`run` ends with the input exhausted and `ceil(n / c)` recorded spill files, the `i`-th of
which (in creation order) holds exactly the values of the `i`-th block of `c` consecutive
input values, sorted ascending under `ExternalSort` and reversed under `ExternalReverse`. -/
theorem C7_spill_file_contents (input : List CInt) (size cap fuel : Nat) (w : World)
    (hcap : 1 ≤ cap) (hfuel : input.length ≤ fuel) :
    (∃ s, partitionLoop ExternalSort.prepare fuel ⟨w, ExternalAlgoritm.new input size cap⟩
          = some s
        ∧ s.self.begin_ = [] ∧ s.self.filenames_.length = (input.length + cap - 1) / cap
        ∧ s.self.countOfFiles_ = s.self.filenames_.length
        ∧ ∀ i, i < s.self.filenames_.length → ∃ name chunk,
            s.self.filenames_[i]? = some name ∧ s.world.files name = some (encode chunk)
            ∧ chunk.Sorted (· ≤ ·) ∧ chunk.Perm ((input.drop (i * cap)).take cap))
      ∧ (∃ s, partitionLoop ExternalReverse.prepare fuel
            ⟨w, ExternalAlgoritm.new input size cap⟩ = some s
        ∧ s.self.begin_ = [] ∧ s.self.filenames_.length = (input.length + cap - 1) / cap
        ∧ s.self.countOfFiles_ = s.self.filenames_.length
        ∧ ∀ i, i < s.self.filenames_.length → ∃ name,
            s.self.filenames_[i]? = some name
            ∧ s.world.files name = some (encode ((input.drop (i * cap)).take cap).reverse)) := by
  have hlenf : ∀ prepare : List CInt → List CInt,
      (partitioned prepare ⟨w, ExternalAlgoritm.new input size cap⟩).self.filenames_.length
        = (input.length + cap - 1) / cap := by
    intro prepare
    simp [partitioned, ExternalAlgoritm.new, tempNames_length, blocks_length]
  have hcnt : ∀ prepare : List CInt → List CInt,
      (partitioned prepare ⟨w, ExternalAlgoritm.new input size cap⟩).self.countOfFiles_
        = (input.length + cap - 1) / cap := by
    intro prepare
    simp [partitioned, ExternalAlgoritm.new, blocks_length]
  refine ⟨⟨_, partitionLoop_eq ExternalSort.prepare fuel _ hcap hfuel, rfl,
      hlenf _, by rw [hcnt, hlenf], ?_⟩,
    ⟨_, partitionLoop_eq ExternalReverse.prepare fuel _ hcap hfuel, rfl,
      hlenf _, by rw [hcnt, hlenf], ?_⟩⟩
  · intro i hi
    rw [hlenf] at hi
    obtain ⟨e1, e2⟩ := partitioned_files ExternalSort.prepare input size cap w i hi
    exact ⟨_, _, e1, e2, std_sort_sorted _, std_sort_perm _⟩
  · intro i hi
    rw [hlenf] at hi
    obtain ⟨e1, e2⟩ := partitioned_files ExternalReverse.prepare input size cap w i hi
    exact ⟨_, e1, e2⟩

/-- Witness for C7 on the input `5 3 1 4 2` with chunk cap 2. -/
theorem C7_spill_file_contents_witness :
    1 ≤ 2 ∧ sampleInput.length ≤ 5 ∧
    ((∃ s, partitionLoop ExternalSort.prepare 5
            ⟨World.initial, ExternalAlgoritm.new sampleInput 5 2⟩ = some s
        ∧ s.self.begin_ = [] ∧ s.self.filenames_.length = (sampleInput.length + 2 - 1) / 2
        ∧ s.self.countOfFiles_ = s.self.filenames_.length
        ∧ ∀ i, i < s.self.filenames_.length → ∃ name chunk,
            s.self.filenames_[i]? = some name ∧ s.world.files name = some (encode chunk)
            ∧ chunk.Sorted (· ≤ ·) ∧ chunk.Perm ((sampleInput.drop (i * 2)).take 2))
      ∧ (∃ s, partitionLoop ExternalReverse.prepare 5
            ⟨World.initial, ExternalAlgoritm.new sampleInput 5 2⟩ = some s
        ∧ s.self.begin_ = [] ∧ s.self.filenames_.length = (sampleInput.length + 2 - 1) / 2
        ∧ s.self.countOfFiles_ = s.self.filenames_.length
        ∧ ∀ i, i < s.self.filenames_.length → ∃ name,
            s.self.filenames_[i]? = some name
            ∧ s.world.files name
              = some (encode ((sampleInput.drop (i * 2)).take 2).reverse))) :=
  ⟨by decide, by decide,
    C7_spill_file_contents sampleInput 5 2 5 World.initial (by decide) (by decide)⟩

/-- The concrete scenario of the specification: on the input `5 3 1 4 2` with chunk cap 2
the recorded spill files hold `3 5`, `1 4`, `2` in sort mode and `3 5`, `4 1`, `2` in
reverse mode. -/
theorem sample_spill_files :
    (partitionLoop ExternalSort.prepare 5
        ⟨World.initial, ExternalAlgoritm.new sampleInput 5 2⟩).map
      (fun s => s.self.filenames_.map (fun name => (s.world.files name).map decodeAll))
      = some [some ([3, 5].map CInt.ofInt), some ([1, 4].map CInt.ofInt),
          some ([2].map CInt.ofInt)]
    ∧ (partitionLoop ExternalReverse.prepare 5
        ⟨World.initial, ExternalAlgoritm.new sampleInput 5 2⟩).map
      (fun s => s.self.filenames_.map (fun name => (s.world.files name).map decodeAll))
      = some [some ([3, 5].map CInt.ofInt), some ([4, 1].map CInt.ofInt),
          some ([2].map CInt.ofInt)] := by
  constructor <;> decide

theorem partitionStep_cap_zero (prepare : List CInt → List CInt) (s : RunState)
    (h0 : s.self.maxObjectsInMemory_ = 0) :
    (partitionStep prepare s).self.maxObjectsInMemory_ = 0
      ∧ (partitionStep prepare s).self.begin_ = s.self.begin_ := by
  rw [partitionStep_eq]
  simp [h0]

/-- With a chunk cap of zero and input left to read, the partitioning loop never ends:
whatever the fuel, it runs out. -/
theorem partitionLoop_cap_zero (prepare : List CInt → List CInt) (fuel : Nat) :
    ∀ s : RunState, s.self.maxObjectsInMemory_ = 0 → s.self.begin_ ≠ [] →
      partitionLoop prepare fuel s = none := by
  induction fuel with
  | zero =>
    intro s _ hne
    cases hb : s.self.begin_ with
    | nil => exact absurd hb hne
    | cons x rest => simp [partitionLoop, hb]
  | succ fuel ih =>
    intro s h0 hne
    obtain ⟨e1, e2⟩ := partitionStep_cap_zero prepare s h0
    have hrec := ih (partitionStep prepare s) e1 (by rw [e2]; exact hne)
    cases hb : s.self.begin_ with
    | nil => exact absurd hb hne
    | cons x rest => simp [partitionLoop, hb, hrec]

/-- C8 fails for the chunk cap 0: on the input `5 3 1 4 2` no amount of fuel lets `run`
finish, because the partitioning loop never consumes a value. -/
theorem C8_counterexample :
    ¬ ∃ fuel r, ExternalSort.run fuel ⟨World.initial, ExternalAlgoritm.new sampleInput 5 0⟩
      = some r := by
  rintro ⟨fuel, r, h⟩
  have hp := partitionLoop_cap_zero ExternalSort.prepare fuel
    ⟨World.initial, ExternalAlgoritm.new sampleInput 5 0⟩ rfl (by decide)
  simp [ExternalSort.run, ExternalAlgoritm.run, hp] at h

/-- C8 (amended): for every input and every chunk cap of at least one, and also for the
empty input with any chunk cap, under both strategies the partitioning loop stops after
finitely many iterations with the input exhausted, and `run` as a whole stops after finitely
many iterations of its merge loop, returning normally. -/
theorem C8_run_terminates (input : List CInt) (size cap fuel : Nat) (w : World)
    (hcap : 1 ≤ cap ∨ input = []) (hfuel : input.length ≤ fuel) :
    ((∃ s1, partitionLoop ExternalSort.prepare fuel ⟨w, ExternalAlgoritm.new input size cap⟩
          = some s1 ∧ s1.self.begin_ = [])
        ∧ ∃ s, ExternalSort.run fuel ⟨w, ExternalAlgoritm.new input size cap⟩
          = some (.ok () s))
      ∧ ((∃ s1, partitionLoop ExternalReverse.prepare fuel
            ⟨w, ExternalAlgoritm.new input size cap⟩ = some s1 ∧ s1.self.begin_ = [])
        ∧ ∃ s, ExternalReverse.run fuel ⟨w, ExternalAlgoritm.new input size cap⟩
          = some (.ok () s)) := by
  rcases hcap with hcap | hnil
  · exact ⟨⟨⟨_, partitionLoop_eq ExternalSort.prepare fuel _ hcap hfuel, rfl⟩,
        ⟨_, sort_run fuel w input size cap hcap hfuel⟩⟩,
      ⟨⟨_, partitionLoop_eq ExternalReverse.prepare fuel _ hcap hfuel, rfl⟩,
        ⟨_, reverse_run fuel w input size cap hcap hfuel⟩⟩⟩
  · subst hnil
    have hp : ∀ prepare : List CInt → List CInt,
        partitionLoop prepare fuel ⟨w, ExternalAlgoritm.new [] size cap⟩
          = some ⟨w, ExternalAlgoritm.new [] size cap⟩ := by
      intro prepare
      cases fuel <;> simp [partitionLoop, ExternalAlgoritm.new]
    exact ⟨⟨⟨_, hp _, rfl⟩,
        ⟨_, run_empty SortMerger.cls ExternalSort.prepare rfl size cap fuel w⟩⟩,
      ⟨⟨_, hp _, rfl⟩,
        ⟨_, run_empty ReverseMerger.cls ExternalReverse.prepare rfl size cap fuel w⟩⟩⟩

/-- Witness for the amended C8 on the input `5 3 1 4 2` with chunk cap 2. -/
theorem C8_run_terminates_witness :
    (1 ≤ 2 ∨ sampleInput = []) ∧ sampleInput.length ≤ 5 ∧
    (((∃ s1, partitionLoop ExternalSort.prepare 5
            ⟨World.initial, ExternalAlgoritm.new sampleInput 5 2⟩ = some s1
          ∧ s1.self.begin_ = [])
        ∧ ∃ s, ExternalSort.run 5 ⟨World.initial, ExternalAlgoritm.new sampleInput 5 2⟩
          = some (.ok () s))
      ∧ ((∃ s1, partitionLoop ExternalReverse.prepare 5
            ⟨World.initial, ExternalAlgoritm.new sampleInput 5 2⟩ = some s1
          ∧ s1.self.begin_ = [])
        ∧ ∃ s, ExternalReverse.run 5 ⟨World.initial, ExternalAlgoritm.new sampleInput 5 2⟩
          = some (.ok () s))) :=
  ⟨Or.inl (by decide), by decide,
    C8_run_terminates sampleInput 5 2 5 World.initial (Or.inl (by decide)) (by decide)⟩


/-! ## Claims about the spill-file cursor -/

/-- C9: round trip through a spill file.  Writing the values `vs` through a
`SerializeIterator` into a file and constructing a `DeserializeIterator` on that file gives
a cursor from which the reading loop collects exactly `vs`; the cursor starts in the end
state iff `vs` is empty; after `k < length vs` advances it is not ended and shows `vs[k]`,
and after `length vs` advances it is ended. -/
theorem C9_spill_file_round_trip (vs : List CInt) (w : World) (file : String) :
    ∃ d0, DeserializeIterator.ofStream
        ((w.store file (std_copy vs { stream_ := [] }).stream_).openIn file) = .ok () d0
      ∧ d0.drain vs.length [] = some vs
      ∧ (d0.isEnd = true ↔ vs = [])
      ∧ (∀ k (hk : k < vs.length),
          ∃ dk, d0.incrN k = .ok () dk ∧ dk.isEnd = false ∧ dk.deref = vs[k])
      ∧ (∃ dn, d0.incrN vs.length = .ok () dn ∧ dn.isEnd = true) := by
  rw [openIn_store, std_copy_fresh]
  obtain ⟨d0, h0, h⟩ := ofStream_of_good (encode vs)
  rw [decodeAll_encode] at h
  refine ⟨d0, h0, ?_⟩
  rcases h with ⟨h1, h2⟩ | ⟨h1, h2⟩
  · subst h2
    refine ⟨drain_of_ended _ _ _ h1, by simp [DeserializeIterator.isEnd, h1], ?_, ?_⟩
    · intro k hk; simp at hk
    · exact ⟨d0, rfl, h1⟩
  · have hne : vs ≠ [] := by rw [← h2]; simp [DeserializeIterator.pending]
    refine ⟨?_, ?_, ?_, ?_⟩
    · have := drain_of_live vs.length d0 [] h1 (by rw [h2])
      simpa [h2] using this
    · simp [DeserializeIterator.isEnd, h1.1, hne]
    · intro k hk
      obtain ⟨dk, e1, e2, e3⟩ := incrN_of_live k d0 h1 (by rw [h2]; exact hk)
      refine ⟨dk, e1, e2.1, ?_⟩
      have e4 : dk.pending[0]? = some dk.deref := by
        simp [DeserializeIterator.pending, DeserializeIterator.deref]
      rw [e3, h2, List.getElem?_drop, Nat.add_zero, List.getElem?_eq_getElem hk] at e4
      exact (Option.some.inj e4).symm
    · exact incrN_to_end vs.length d0 h1 (by rw [h2])

/-- C10: `operator++` throws exactly when the cursor is in the end state; a throwing
advance leaves the cursor as it was; hence an ended cursor stays ended (indeed unchanged)
under any sequence of operations of its interface. -/
theorem C10_advance_fails_iff_ended (d : DeserializeIterator) :
    (d.incr.failed = true ↔ d.isEnd = true)
      ∧ (d.incr.failed = true → d.incr.state = d)
      ∧ (d.isEnd = true → ∀ ops : List CursorOp,
          (ops.foldl (fun c op => op.apply c) d).isEnd = true) := by
  refine ⟨?_, ?_, ?_⟩
  · cases h : d.isEnd_ <;> simp [DeserializeIterator.incr, DeserializeIterator.isEnd, h, Result.failed]
  · cases h : d.isEnd_ <;> simp [DeserializeIterator.incr, h, Result.failed, Result.state]
  · intro h ops
    have hfix : ops.foldl (fun c op => op.apply c) d = d := by
      induction ops with
      | nil => rfl
      | cons op ops ih => rw [List.foldl_cons, apply_of_ended op d h, ih]
    rw [hfix]; exact h

/-! ## Claims about the mergers -/

/-- C11 (the code at the failing input): a cursor opened on an empty spill file, like a
default-constructed one, is in the end state; a `ReverseMerger` or `SortMerger` constructed
from it holds it, so `hasNext()` is true although no cursor has a value to produce, and
`next()` then throws. -/
theorem C11_end_cursor_kept :
    DeserializeIterator.default.isEnd = true ∧ (chunkCursor []).isEnd = true
      ∧ (ReverseMerger.ctor [chunkCursor []]).deserializers_ = [chunkCursor []]
      ∧ (ReverseMerger.ctor [chunkCursor []]).hasNext = true
      ∧ (ReverseMerger.ctor [chunkCursor []]).next.failed = true
      ∧ (SortMerger.ctor [chunkCursor []]).deserializers_ = [chunkCursor []]
      ∧ (SortMerger.ctor [chunkCursor []]).hasNext = true
      ∧ (SortMerger.ctor [chunkCursor []]).next.failed = true := by
  decide

/-- C13: for spill files `f1 .. fm`, each holding at least one value, calling
`ReverseMerger::next` while `hasNext()` is true never throws and produces exactly
`fm ++ .. ++ f1`, after which `hasNext()` is false. -/
theorem C13_reverse_merge_output (files : List (List CInt)) (fuel : Nat)
    (hne : ∀ f ∈ files, f ≠ []) (hfuel : files.flatten.length ≤ fuel) :
    ∃ m, mergeLoop ReverseMerger.cls fuel (ReverseMerger.ctor (files.map chunkCursor)) []
        = some (.ok () (m, files.reverse.flatten))
      ∧ ReverseMerger.hasNext m = false := by
  have hpend := map_pending_chunkCursor files hne
  have h := reverse_mergeLoop fuel (files.map chunkCursor) []
    (by
      intro d hd
      obtain ⟨c, hc, rfl⟩ := List.mem_map.mp hd
      exact (chunkCursor_live c (hne c hc)).1)
    (by rw [hpend]; exact hfuel)
  rw [hpend, List.nil_append] at h
  exact ⟨{ deserializers_ := [] }, h, rfl⟩

/-- Witness for C13 on the files `3 5`, `4 1`, `2`. -/
theorem C13_reverse_merge_output_witness :
    (∀ f ∈ [[3, 5], [4, 1], [2]].map (List.map CInt.ofInt), f ≠ [])
      ∧ ([[3, 5], [4, 1], [2]].map (List.map CInt.ofInt)).flatten.length ≤ 5
      ∧ ∃ m, mergeLoop ReverseMerger.cls 5
          (ReverseMerger.ctor (([[3, 5], [4, 1], [2]].map (List.map CInt.ofInt)).map chunkCursor)) []
          = some (.ok () (m, ([[3, 5], [4, 1], [2]].map (List.map CInt.ofInt)).reverse.flatten))
        ∧ ReverseMerger.hasNext m = false :=
  ⟨by decide, by decide,
    C13_reverse_merge_output ([[3, 5], [4, 1], [2]].map (List.map CInt.ofInt)) 5
      (by decide) (by decide)⟩

/-- C14: on a `SortMerger` and on a `ReverseMerger` whose `hasNext()` is false, `next()`
throws, returns no value and leaves the merger as it was, holding no cursor. -/
theorem C14_next_on_exhausted (ms : SortMerger) (mr : ReverseMerger)
    (hs : ms.hasNext = false) (hr : mr.hasNext = false) :
    (ms.next = .thrown 1 ms ∧ ms.next.failed = true ∧ ms.next.state = ms
        ∧ ms.next.state.deserializers_ = [])
      ∧ (mr.next = .thrown 1 mr ∧ mr.next.failed = true ∧ mr.next.state = mr
        ∧ mr.next.state.deserializers_ = []) := by
  have es : ms.next = .thrown 1 ms := by simp [SortMerger.next, hs]
  have er : mr.next = .thrown 1 mr := by simp [ReverseMerger.next, hr]
  have ns : ms.deserializers_ = [] := by
    simpa [SortMerger.hasNext] using hs
  have nr : mr.deserializers_ = [] := by
    simpa [ReverseMerger.hasNext] using hr
  rw [es, er]
  exact ⟨⟨rfl, rfl, rfl, ns⟩, ⟨rfl, rfl, rfl, nr⟩⟩

/-- Witness for C14 on the mergers that hold no cursor. -/
theorem C14_next_on_exhausted_witness :
    (SortMerger.ctor []).hasNext = false ∧ (ReverseMerger.ctor []).hasNext = false
      ∧ (((SortMerger.ctor []).next = .thrown 1 (SortMerger.ctor [])
          ∧ (SortMerger.ctor []).next.failed = true
          ∧ (SortMerger.ctor []).next.state = SortMerger.ctor []
          ∧ (SortMerger.ctor []).next.state.deserializers_ = [])
        ∧ ((ReverseMerger.ctor []).next = .thrown 1 (ReverseMerger.ctor [])
          ∧ (ReverseMerger.ctor []).next.failed = true
          ∧ (ReverseMerger.ctor []).next.state = ReverseMerger.ctor []
          ∧ (ReverseMerger.ctor []).next.state.deserializers_ = [])) :=
  ⟨by decide, by decide,
    C14_next_on_exhausted (SortMerger.ctor []) (ReverseMerger.ctor []) (by decide) (by decide)⟩

/-! ## Further claims about `run` -/

/-- C17: for every input and every chunk cap of at least one, under both strategies `run`
returns normally: no `throw` is executed, neither by `operator++` on an ended cursor nor by
`next()` on an exhausted merger. -/
theorem C17_run_never_throws (input : List CInt) (size cap fuel : Nat) (w : World)
    (hcap : 1 ≤ cap) (hfuel : input.length ≤ fuel) :
    (∃ r, ExternalSort.run fuel ⟨w, ExternalAlgoritm.new input size cap⟩ = some r
        ∧ r.failed = false)
      ∧ (∃ r, ExternalReverse.run fuel ⟨w, ExternalAlgoritm.new input size cap⟩ = some r
        ∧ r.failed = false) :=
  ⟨⟨_, sort_run fuel w input size cap hcap hfuel, rfl⟩,
   ⟨_, reverse_run fuel w input size cap hcap hfuel, rfl⟩⟩

/-- Witness for C17 on the input `5 3 1 4 2` with chunk cap 2. -/
theorem C17_run_never_throws_witness :
    1 ≤ 2 ∧ sampleInput.length ≤ 5
      ∧ ((∃ r, ExternalSort.run 5 ⟨World.initial, ExternalAlgoritm.new sampleInput 5 2⟩ = some r
          ∧ r.failed = false)
        ∧ (∃ r, ExternalReverse.run 5 ⟨World.initial, ExternalAlgoritm.new sampleInput 5 2⟩
            = some r
          ∧ r.failed = false)) :=
  ⟨by decide, by decide,
    C17_run_never_throws sampleInput 5 2 5 World.initial (by decide) (by decide)⟩

theorem block_length_bounds (input : List CInt) (cap i : Nat) (hcap : 1 ≤ cap)
    (hi : i < (input.length + cap - 1) / cap) :
    1 ≤ ((input.drop (i * cap)).take cap).length
      ∧ ((input.drop (i * cap)).take cap).length ≤ cap
      ∧ (i + 1 < (input.length + cap - 1) / cap →
          ((input.drop (i * cap)).take cap).length = cap) := by
  have h1 : i * cap < input.length := by
    have : (i + 1) * cap ≤ input.length + cap - 1 :=
      (Nat.le_div_iff_mul_le (by omega : 0 < cap)).mp hi
    have e : (i + 1) * cap = i * cap + cap := Nat.succ_mul i cap
    omega
  rw [List.length_take, List.length_drop]
  refine ⟨by omega, by omega, ?_⟩
  intro h2
  have : (i + 1 + 1) * cap ≤ input.length + cap - 1 :=
    (Nat.le_div_iff_mul_le (by omega : 0 < cap)).mp h2
  have e : (i + 1 + 1) * cap = i * cap + cap + cap := by
    rw [Nat.succ_mul, Nat.succ_mul]
  omega

/-- C19: for every input of length `n` and every chunk cap `c` of at least one, under both
strategies the partitioning loop of `run` ends having recorded exactly `ceil(n / c)` spill
files; each of them holds at least one and at most `c` values, and each but the last holds
exactly `c` values. -/
theorem C19_spill_file_count (input : List CInt) (size cap fuel : Nat) (w : World)
    (hcap : 1 ≤ cap) (hfuel : input.length ≤ fuel) :
    (∃ s, partitionLoop ExternalSort.prepare fuel ⟨w, ExternalAlgoritm.new input size cap⟩
          = some s
        ∧ s.self.countOfFiles_ = (input.length + cap - 1) / cap
        ∧ s.self.filenames_.length = (input.length + cap - 1) / cap
        ∧ ∀ i, i < (input.length + cap - 1) / cap → ∃ name chunk,
            s.self.filenames_[i]? = some name ∧ s.world.files name = some (encode chunk)
            ∧ 1 ≤ chunk.length ∧ chunk.length ≤ cap
            ∧ (i + 1 < (input.length + cap - 1) / cap → chunk.length = cap))
      ∧ (∃ s, partitionLoop ExternalReverse.prepare fuel
            ⟨w, ExternalAlgoritm.new input size cap⟩ = some s
        ∧ s.self.countOfFiles_ = (input.length + cap - 1) / cap
        ∧ s.self.filenames_.length = (input.length + cap - 1) / cap
        ∧ ∀ i, i < (input.length + cap - 1) / cap → ∃ name chunk,
            s.self.filenames_[i]? = some name ∧ s.world.files name = some (encode chunk)
            ∧ 1 ≤ chunk.length ∧ chunk.length ≤ cap
            ∧ (i + 1 < (input.length + cap - 1) / cap → chunk.length = cap)) := by
  have hlenf : ∀ prepare : List CInt → List CInt,
      (partitioned prepare ⟨w, ExternalAlgoritm.new input size cap⟩).self.filenames_.length
        = (input.length + cap - 1) / cap := by
    intro prepare
    simp [partitioned, ExternalAlgoritm.new, tempNames_length, blocks_length]
  have hcnt : ∀ prepare : List CInt → List CInt,
      (partitioned prepare ⟨w, ExternalAlgoritm.new input size cap⟩).self.countOfFiles_
        = (input.length + cap - 1) / cap := by
    intro prepare
    simp [partitioned, ExternalAlgoritm.new, blocks_length]
  refine ⟨⟨_, partitionLoop_eq ExternalSort.prepare fuel _ hcap hfuel, hcnt _, hlenf _, ?_⟩,
    ⟨_, partitionLoop_eq ExternalReverse.prepare fuel _ hcap hfuel, hcnt _, hlenf _, ?_⟩⟩
  · intro i hi
    obtain ⟨e1, e2⟩ := partitioned_files ExternalSort.prepare input size cap w i hi
    refine ⟨_, _, e1, e2, ?_⟩
    have hl : (ExternalSort.prepare ((input.drop (i * cap)).take cap)).length
        = ((input.drop (i * cap)).take cap).length := (std_sort_perm _).length_eq
    rw [hl]
    exact block_length_bounds input cap i hcap hi
  · intro i hi
    obtain ⟨e1, e2⟩ := partitioned_files ExternalReverse.prepare input size cap w i hi
    refine ⟨_, _, e1, e2, ?_⟩
    have hl : (ExternalReverse.prepare ((input.drop (i * cap)).take cap)).length
        = ((input.drop (i * cap)).take cap).length := List.length_reverse _
    rw [hl]
    exact block_length_bounds input cap i hcap hi

/-- Witness for C19 on the input `5 3 1 4 2` with chunk cap 2. -/
theorem C19_spill_file_count_witness :
    1 ≤ 2 ∧ sampleInput.length ≤ 5 ∧
    ((∃ s, partitionLoop ExternalSort.prepare 5
            ⟨World.initial, ExternalAlgoritm.new sampleInput 5 2⟩ = some s
        ∧ s.self.countOfFiles_ = (sampleInput.length + 2 - 1) / 2
        ∧ s.self.filenames_.length = (sampleInput.length + 2 - 1) / 2
        ∧ ∀ i, i < (sampleInput.length + 2 - 1) / 2 → ∃ name chunk,
            s.self.filenames_[i]? = some name ∧ s.world.files name = some (encode chunk)
            ∧ 1 ≤ chunk.length ∧ chunk.length ≤ 2
            ∧ (i + 1 < (sampleInput.length + 2 - 1) / 2 → chunk.length = 2))
      ∧ (∃ s, partitionLoop ExternalReverse.prepare 5
            ⟨World.initial, ExternalAlgoritm.new sampleInput 5 2⟩ = some s
        ∧ s.self.countOfFiles_ = (sampleInput.length + 2 - 1) / 2
        ∧ s.self.filenames_.length = (sampleInput.length + 2 - 1) / 2
        ∧ ∀ i, i < (sampleInput.length + 2 - 1) / 2 → ∃ name chunk,
            s.self.filenames_[i]? = some name ∧ s.world.files name = some (encode chunk)
            ∧ 1 ≤ chunk.length ∧ chunk.length ≤ 2
            ∧ (i + 1 < (sampleInput.length + 2 - 1) / 2 → chunk.length = 2))) :=
  ⟨by decide, by decide,
    C19_spill_file_count sampleInput 5 2 5 World.initial (by decide) (by decide)⟩

theorem partitionLoop_withSize (prepare : List CInt → List CInt) (n fuel : Nat) :
    ∀ s : RunState, partitionLoop prepare fuel (s.withSize n)
      = (partitionLoop prepare fuel s).map (RunState.withSize n) := by
  induction fuel with
  | zero =>
    intro s
    simp only [partitionLoop, RunState.withSize]
    split <;> rfl
  | succ fuel ih =>
    intro s
    simp only [partitionLoop]
    have hb : (s.withSize n).self.begin_ = s.self.begin_ := rfl
    rw [hb]
    split
    · rfl
    · exact ih (partitionStep prepare s)

theorem run_withSize (Mg : MergerClass) (prepare : List CInt → List CInt) (n fuel : Nat)
    (s : RunState) :
    ExternalAlgoritm.run Mg prepare fuel (s.withSize n)
      = (ExternalAlgoritm.run Mg prepare fuel s).map (Result.mapState (RunState.withSize n)) := by
  unfold ExternalAlgoritm.run
  rw [partitionLoop_withSize]
  cases partitionLoop prepare fuel s with
  | none => rfl
  | some s1 =>
    simp only [Option.map_some']
    have e1 : (s1.withSize n).world = s1.world := rfl
    have e2 : (s1.withSize n).self.filenames_ = s1.self.filenames_ := rfl
    have e3 : (s1.withSize n).self.countOfFiles_ = s1.self.countOfFiles_ := rfl
    have e4 : (s1.withSize n).self.out_ = s1.self.out_ := rfl
    rw [e1, e2, e3, e4]
    cases openLoop s1.world s1.self.filenames_ (List.range s1.self.countOfFiles_)
        (List.replicate s1.self.countOfFiles_ DeserializeIterator.default) with
    | thrown c ds => rfl
    | ok u ds =>
      simp only []
      cases mergeLoop Mg fuel (Mg.ctor ds) s1.self.out_ with
      | none => rfl
      | some r =>
        cases r with
        | ok u mo => rfl
        | thrown c mo => rfl

/-- C20: the declared element count has no effect.  For every input, chunk cap, fuel and
two values `s1`, `s2` of `size`, under both strategies the outcome of `run` with `size = s2`
is the outcome with `size = s1` (no result, a normal return or a throw) in which only the
field `size_` of the object differs: the files on disk, the recorded names and the output
are the same. -/
theorem C20_size_has_no_effect (input : List CInt) (cap s1 s2 fuel : Nat) (w : World) :
    ExternalSort.run fuel ⟨w, ExternalAlgoritm.new input s2 cap⟩
        = (ExternalSort.run fuel ⟨w, ExternalAlgoritm.new input s1 cap⟩).map
            (Result.mapState (RunState.withSize s2))
      ∧ ExternalReverse.run fuel ⟨w, ExternalAlgoritm.new input s2 cap⟩
        = (ExternalReverse.run fuel ⟨w, ExternalAlgoritm.new input s1 cap⟩).map
            (Result.mapState (RunState.withSize s2)) :=
  ⟨run_withSize SortMerger.cls ExternalSort.prepare s2 fuel ⟨w, ExternalAlgoritm.new input s1 cap⟩,
   run_withSize ReverseMerger.cls ExternalReverse.prepare s2 fuel
     ⟨w, ExternalAlgoritm.new input s1 cap⟩⟩

/-- The specification's scenario run with a declared count of 0 and of 1000 instead of 5:
the output and the recorded names are those of the run with the true count. -/
theorem sample_size_ignored :
    (ExternalSort.run 5 ⟨World.initial, ExternalAlgoritm.new sampleInput 0 2⟩).map
        (fun r => (r.failed, r.state.self.out_, r.state.self.filenames_))
      = some (false, [1, 2, 3, 4, 5].map CInt.ofInt, ["file0.tmp", "file1.tmp", "file2.tmp"])
    ∧ (ExternalSort.run 5 ⟨World.initial, ExternalAlgoritm.new sampleInput 1000 2⟩).map
        (fun r => (r.failed, r.state.self.out_, r.state.self.filenames_))
      = some (false, [1, 2, 3, 4, 5].map CInt.ofInt, ["file0.tmp", "file1.tmp", "file2.tmp"]) := by
  constructor <;> decide

/-! ## Temporary file names -/

theorem tempFilenames_eq (n : Nat) :
    ∀ w : World, (tempFilenames n w).1 = tempNames w.filenumber n
      ∧ (tempFilenames n w).2.filenumber = w.filenumber + n
      ∧ (tempFilenames n w).2.files = w.files := by
  induction n with
  | zero => intro w; exact ⟨rfl, rfl, rfl⟩
  | succ n ih =>
    intro w
    obtain ⟨e1, e2, e3⟩ := ih (tempFilename w).2
    refine ⟨?_, ?_, ?_⟩
    · simp only [tempFilenames, e1, tempNames_succ]
      simp [tempFilename, Nat.add_comm]
    · simp only [tempFilenames, e2]
      simp [tempFilename]; omega
    · simp only [tempFilenames, e3]
      rfl

theorem tempNames_getElem? (k m i : Nat) (hi : i < m) :
    (tempNames k m)[i]? = some ("file" ++ toString (k + i) ++ ".tmp") := by
  simp only [tempNames]
  rw [List.getElem?_eq_getElem (by simpa using hi)]
  simp

theorem tempNames_nodup (k m : Nat) : (tempNames k m).Nodup := by
  unfold tempNames
  apply (List.nodup_range m).map
  intro i j h
  have := tempName_injective _ _ h
  omega

theorem mem_tempNames (k m : Nat) (name : String) (h : name ∈ tempNames k m) :
    ∃ i, i < m ∧ name = "file" ++ toString (k + i) ++ ".tmp" := by
  simp only [tempNames, List.mem_map, List.mem_range] at h
  obtain ⟨i, hi, e⟩ := h
  exact ⟨i, hi, e.symm⟩

/-- Whatever the chunk cap, a partitioning loop that ends has written some chunks, one after
the other, to the files named by successive calls of `tempFilename`, and has recorded those
names after the ones it had. -/
theorem partitionLoop_world (prepare : List CInt → List CInt) (fuel : Nat) :
    ∀ s s1 : RunState, partitionLoop prepare fuel s = some s1 →
      ∃ chunks, s1.world = storeChunks s.world chunks
        ∧ s1.self.filenames_ = s.self.filenames_ ++ tempNames s.world.filenumber chunks.length := by
  induction fuel with
  | zero =>
    intro s s1 h
    simp only [partitionLoop] at h
    split at h
    · cases h
      exact ⟨[], rfl, by simp [tempNames]⟩
    · cases h
  | succ fuel ih =>
    intro s s1 h
    simp only [partitionLoop] at h
    split at h
    · cases h
      exact ⟨[], rfl, by simp [tempNames]⟩
    · obtain ⟨chunks, e1, e2⟩ := ih _ _ h
      rw [partitionStep_eq] at e1 e2
      refine ⟨prepare (s.self.begin_.take s.self.maxObjectsInMemory_) :: chunks, ?_, ?_⟩
      · rw [e1]; rfl
      · rw [e2]
        simp only [List.length_cons, tempNames_succ, List.append_assoc, List.singleton_append]
        simp [tempFilename, World.store]

theorem run_world (Mg : MergerClass) (prepare : List CInt → List CInt) (fuel : Nat)
    (s : RunState) (r : Result RunState Unit)
    (h : ExternalAlgoritm.run Mg prepare fuel s = some r) :
    ∃ s1, partitionLoop prepare fuel s = some s1 ∧ r.state.world = s1.world
      ∧ r.state.self.filenames_ = s1.self.filenames_ := by
  unfold ExternalAlgoritm.run at h
  cases hp : partitionLoop prepare fuel s with
  | none => rw [hp] at h; cases h
  | some s1 =>
    rw [hp] at h
    refine ⟨s1, rfl, ?_⟩
    simp only [] at h
    cases ho : openLoop s1.world s1.self.filenames_ (List.range s1.self.countOfFiles_)
        (List.replicate s1.self.countOfFiles_ DeserializeIterator.default) with
    | thrown c ds =>
      rw [ho] at h
      cases h
      exact ⟨rfl, rfl⟩
    | ok u ds =>
      rw [ho] at h
      simp only [] at h
      cases hm : mergeLoop Mg fuel (Mg.ctor ds) s1.self.out_ with
      | none => rw [hm] at h; cases h
      | some mr =>
        rw [hm] at h
        cases mr with
        | ok u mo => cases h; exact ⟨rfl, rfl⟩
        | thrown c mo => cases h; exact ⟨rfl, rfl⟩

/-- With the counter as a natural number, the names returned by `n` successive calls of
`tempFilename` are pairwise distinct, the `i`-th being `file<k+i>.tmp` for the counter value
`k` at the first call; the names recorded by two runs in a row are pairwise distinct, and
the later run leaves the files of the earlier run as they were. -/
theorem unbounded_names_distinct (n : Nat) (w : World) (Mg1 Mg2 : MergerClass)
    (prepare1 prepare2 : List CInt → List CInt) (fuel1 fuel2 : Nat)
    (input1 input2 : List CInt) (size1 size2 cap1 cap2 : Nat) (r1 r2 : Result RunState Unit)
    (h1 : ExternalAlgoritm.run Mg1 prepare1 fuel1 ⟨w, ExternalAlgoritm.new input1 size1 cap1⟩
      = some r1)
    (h2 : ExternalAlgoritm.run Mg2 prepare2 fuel2
      ⟨r1.state.world, ExternalAlgoritm.new input2 size2 cap2⟩ = some r2) :
    (tempFilenames n w).1.Nodup
      ∧ (∀ i, i < n →
          (tempFilenames n w).1[i]? = some ("file" ++ toString (w.filenumber + i) ++ ".tmp"))
      ∧ (∀ i j : Nat, i ≠ j → "file" ++ toString i ++ ".tmp" ≠ "file" ++ toString j ++ ".tmp")
      ∧ (r1.state.self.filenames_ ++ r2.state.self.filenames_).Nodup
      ∧ (∀ name ∈ r1.state.self.filenames_,
          r2.state.world.files name = r1.state.world.files name) := by
  obtain ⟨f1, _, _⟩ := tempFilenames_eq n w
  refine ⟨by rw [f1]; exact tempNames_nodup _ _, ?_, ?_, ?_⟩
  · intro i hi
    rw [f1]; exact tempNames_getElem? _ _ _ hi
  · intro i j hij e
    exact hij (tempName_injective i j e)
  obtain ⟨s1, p1, w1, n1⟩ := run_world Mg1 prepare1 fuel1 _ r1 h1
  obtain ⟨s2, p2, w2, n2⟩ := run_world Mg2 prepare2 fuel2 _ r2 h2
  obtain ⟨c1, a1, b1⟩ := partitionLoop_world prepare1 fuel1 _ _ p1
  obtain ⟨c2, a2, b2⟩ := partitionLoop_world prepare2 fuel2 _ _ p2
  simp only [ExternalAlgoritm.new, List.nil_append] at b1 b2
  have hk : r1.state.world.filenumber = w.filenumber + c1.length := by
    rw [w1, a1, storeChunks_filenumber]
  rw [hk] at b2
  rw [n1, n2, b1, b2, w2, a2]
  constructor
  · have hcat : tempNames w.filenumber c1.length ++ tempNames (w.filenumber + c1.length) c2.length
        = tempNames w.filenumber (c1.length + c2.length) := by
      simp only [tempNames]
      rw [List.range_add, List.map_append, List.map_map]
      congr 1
      apply List.map_congr_left
      intro i _
      simp [Function.comp, Nat.add_assoc]
    rw [hcat]
    exact tempNames_nodup _ _
  · intro name hname
    obtain ⟨i, hi, rfl⟩ := mem_tempNames _ _ _ hname
    apply storeChunks_frame
    intro j _ e
    have := tempName_injective _ _ e
    rw [hk] at this
    omega

theorem ofInt_succ (n : Int) : CInt.ofInt ((CInt.ofInt n).val + 1) = CInt.ofInt (n + 1) := by
  apply Subtype.ext
  simp only [CInt.ofInt, CInt.ofBits]
  split <;> split <;> split <;> omega

theorem counterAfter_eq (n : Nat) : counterAfter n = CInt.ofInt n := by
  induction n with
  | zero => rfl
  | succ n ih =>
    simp only [counterAfter, tempFilenameInt, ih]
    rw [ofInt_succ]
    rfl

theorem ofInt_val_of_lt (n : Nat) (h : n < 2147483648) : (CInt.ofInt n).val = n := by
  simp only [CInt.ofInt, CInt.ofBits]
  split <;> omega

theorem nthTempName_eq (i : Nat) :
    nthTempName i = "file" ++ toString (CInt.ofInt i).val ++ ".tmp" := by
  simp only [nthTempName, tempFilenameInt, counterAfter_eq]

/-- Before the `int` counter overflows, call number `i` returns `file<i>.tmp`. -/
theorem nthTempName_of_lt (i : Nat) (h : i < 2147483648) :
    nthTempName i = "file" ++ toString i ++ ".tmp" := by
  rw [nthTempName_eq, ofInt_val_of_lt i h]
  rfl

/-- While the counter is below `2^31`, the function on the natural-number counter returns
the name that the function on the `int` counter returns, and the two counters stay in step. -/
theorem tempFilename_agrees (w : World) (h : w.filenumber < 2147483648) :
    (tempFilename w).1 = (tempFilenameInt (CInt.ofInt w.filenumber)).1
      ∧ CInt.ofInt (tempFilename w).2.filenumber = (tempFilenameInt (CInt.ofInt w.filenumber)).2 := by
  constructor
  · simp only [tempFilename, tempFilenameInt, ofInt_val_of_lt _ h]
    rfl
  · simp only [tempFilename, tempFilenameInt]
    rw [ofInt_succ]
    rfl

/-- The names two runs in a row record are the names of successive calls of `tempFilename`
from the counter value at the start; the counter advances by their number, and the later
run leaves the files of the earlier run as they were. -/
theorem two_runs_names (w : World) (Mg1 Mg2 : MergerClass)
    (prepare1 prepare2 : List CInt → List CInt) (fuel1 fuel2 : Nat)
    (input1 input2 : List CInt) (size1 size2 cap1 cap2 : Nat) (r1 r2 : Result RunState Unit)
    (h1 : ExternalAlgoritm.run Mg1 prepare1 fuel1 ⟨w, ExternalAlgoritm.new input1 size1 cap1⟩
      = some r1)
    (h2 : ExternalAlgoritm.run Mg2 prepare2 fuel2
      ⟨r1.state.world, ExternalAlgoritm.new input2 size2 cap2⟩ = some r2) :
    ∃ m, r1.state.self.filenames_ ++ r2.state.self.filenames_ = tempNames w.filenumber m
      ∧ r2.state.world.filenumber = w.filenumber + m
      ∧ (∀ name ∈ r1.state.self.filenames_,
          r2.state.world.files name = r1.state.world.files name) := by
  obtain ⟨s1, p1, w1, n1⟩ := run_world Mg1 prepare1 fuel1 _ r1 h1
  obtain ⟨s2, p2, w2, n2⟩ := run_world Mg2 prepare2 fuel2 _ r2 h2
  obtain ⟨c1, a1, b1⟩ := partitionLoop_world prepare1 fuel1 _ _ p1
  obtain ⟨c2, a2, b2⟩ := partitionLoop_world prepare2 fuel2 _ _ p2
  simp only [ExternalAlgoritm.new, List.nil_append] at b1 b2
  have hk : r1.state.world.filenumber = w.filenumber + c1.length := by
    rw [w1, a1, storeChunks_filenumber]
  rw [hk] at b2
  refine ⟨c1.length + c2.length, ?_, ?_, ?_⟩
  · rw [n1, n2, b1, b2]
    simp only [tempNames]
    rw [List.range_add, List.map_append, List.map_map]
    congr 1
    apply List.map_congr_left
    intro i _
    simp [Function.comp, Nat.add_assoc]
  · rw [w2, a2, storeChunks_filenumber, hk]
    omega
  · rw [n1, b1, w2, a2]
    intro name hname
    obtain ⟨i, hi, rfl⟩ := mem_tempNames _ _ _ hname
    apply storeChunks_frame
    intro j _ e
    have := tempName_injective _ _ e
    rw [hk] at this
    omega

/-- C15 fails on the code once the `int` counter has overflowed: call number `2^32` returns
`file0.tmp`, the name call number 0 returned, and call number `2^31` returns
`file-2147483648.tmp`, not `file2147483648.tmp`. -/
theorem C15_counterexample :
    (0 : Nat) ≠ 4294967296 ∧ nthTempName 0 = nthTempName 4294967296
      ∧ nthTempName 4294967296 = "file0.tmp"
      ∧ nthTempName 2147483648 = "file-2147483648.tmp"
      ∧ nthTempName 2147483648 ≠ "file2147483648.tmp" := by
  simp only [nthTempName_eq]
  decide

/-- C15 (amended): among the first `2^31` calls of `tempFilename` in a process, that is
before the `int` counter overflows, no name repeats: for two distinct call numbers
`i, j < 2^31` the returned names are `file<i>.tmp` and `file<j>.tmp` and they differ.  Hence,
when two runs in a row end with the counter at most `2^31`, the names they record are the
names of the calls with as many successive numbers, pairwise distinct, and the later run
leaves the files of the earlier run as they were. -/
theorem C15_temp_names_distinct_before_overflow (i j : Nat) (w : World)
    (Mg1 Mg2 : MergerClass) (prepare1 prepare2 : List CInt → List CInt) (fuel1 fuel2 : Nat)
    (input1 input2 : List CInt) (size1 size2 cap1 cap2 : Nat) (r1 r2 : Result RunState Unit)
    (hi : i < 2147483648) (hj : j < 2147483648) (hij : i ≠ j)
    (h1 : ExternalAlgoritm.run Mg1 prepare1 fuel1 ⟨w, ExternalAlgoritm.new input1 size1 cap1⟩
      = some r1)
    (h2 : ExternalAlgoritm.run Mg2 prepare2 fuel2
      ⟨r1.state.world, ExternalAlgoritm.new input2 size2 cap2⟩ = some r2)
    (hb : r2.state.world.filenumber ≤ 2147483648) :
    nthTempName i = "file" ++ toString i ++ ".tmp"
      ∧ nthTempName j = "file" ++ toString j ++ ".tmp"
      ∧ nthTempName i ≠ nthTempName j
      ∧ r1.state.self.filenames_ ++ r2.state.self.filenames_
          = (List.range (r1.state.self.filenames_ ++ r2.state.self.filenames_).length).map
              (fun c => nthTempName (w.filenumber + c))
      ∧ (r1.state.self.filenames_ ++ r2.state.self.filenames_).Nodup
      ∧ (∀ name ∈ r1.state.self.filenames_,
          r2.state.world.files name = r1.state.world.files name) := by
  obtain ⟨m, e1, e2, e3⟩ := two_runs_names w Mg1 Mg2 prepare1 prepare2 fuel1 fuel2
    input1 input2 size1 size2 cap1 cap2 r1 r2 h1 h2
  refine ⟨nthTempName_of_lt i hi, nthTempName_of_lt j hj, ?_, ?_, ?_, e3⟩
  · rw [nthTempName_of_lt i hi, nthTempName_of_lt j hj]
    intro e
    exact hij (tempName_injective i j e)
  · rw [e1, tempNames_length]
    simp only [tempNames]
    apply List.map_congr_left
    intro c hc
    have hc : c < m := List.mem_range.mp hc
    rw [nthTempName_of_lt _ (by omega)]
  · rw [e1]
    exact tempNames_nodup _ _

/-- Witness for the amended C15: the calls number 0 and 1, and at process start a sorting
run followed by a reversing run on the input `5 3 1 4 2` with chunk cap 2. -/
theorem C15_temp_names_distinct_before_overflow_witness :
    ∃ r1 r2,
      ExternalAlgoritm.run SortMerger.cls ExternalSort.prepare 5
          ⟨World.initial, ExternalAlgoritm.new sampleInput 5 2⟩ = some r1
      ∧ ExternalAlgoritm.run ReverseMerger.cls ExternalReverse.prepare 5
          ⟨r1.state.world, ExternalAlgoritm.new sampleInput 5 2⟩ = some r2
      ∧ r2.state.world.filenumber ≤ 2147483648
      ∧ (nthTempName 0 = "file" ++ toString 0 ++ ".tmp"
        ∧ nthTempName 1 = "file" ++ toString 1 ++ ".tmp"
        ∧ nthTempName 0 ≠ nthTempName 1
        ∧ r1.state.self.filenames_ ++ r2.state.self.filenames_
            = (List.range (r1.state.self.filenames_ ++ r2.state.self.filenames_).length).map
                (fun c => nthTempName (World.initial.filenumber + c))
        ∧ (r1.state.self.filenames_ ++ r2.state.self.filenames_).Nodup
        ∧ (∀ name ∈ r1.state.self.filenames_,
            r2.state.world.files name = r1.state.world.files name)) :=
  ⟨_, _, sort_run 5 World.initial sampleInput 5 2 (by decide) (by decide),
    reverse_run 5 _ sampleInput 5 2 (by decide) (by decide), by decide,
    C15_temp_names_distinct_before_overflow 0 1 World.initial SortMerger.cls ReverseMerger.cls
      ExternalSort.prepare ExternalReverse.prepare 5 5 sampleInput sampleInput 5 5 2 2 _ _
      (by decide) (by decide) (by decide)
      (sort_run 5 World.initial sampleInput 5 2 (by decide) (by decide))
      (reverse_run 5 _ sampleInput 5 2 (by decide) (by decide)) (by decide)⟩

/-- Two runs in a row at process start, sorting then reversing the input `5 3 1 4 2` with
chunk cap 2: the recorded names are `file0.tmp` to `file2.tmp` and `file3.tmp` to
`file5.tmp`, and after the second run the files of the first still hold `3 5`, `1 4`, `2`. -/
theorem sample_two_runs :
    ((ExternalSort.run 5 ⟨World.initial, ExternalAlgoritm.new sampleInput 5 2⟩).bind
        (fun r1 => (ExternalReverse.run 5
            ⟨r1.state.world, ExternalAlgoritm.new sampleInput 5 2⟩).map
          (fun r2 => r1.state.self.filenames_ ++ r2.state.self.filenames_)))
      = some ["file0.tmp", "file1.tmp", "file2.tmp", "file3.tmp", "file4.tmp", "file5.tmp"]
    ∧ ((ExternalSort.run 5 ⟨World.initial, ExternalAlgoritm.new sampleInput 5 2⟩).bind
        (fun r1 => (ExternalReverse.run 5
            ⟨r1.state.world, ExternalAlgoritm.new sampleInput 5 2⟩).map
          (fun r2 => r1.state.self.filenames_.map
              (fun name => (r2.state.world.files name).map decodeAll))))
      = some [some ([3, 5].map CInt.ofInt), some ([1, 4].map CInt.ofInt),
            some ([2].map CInt.ofInt)] := by
  constructor <;> decide

/-! ## The state of a `SortMerger` -/

theorem incr_of_not_ended (d : DeserializeIterator) (h : d.isEnd_ = false) :
    d.incr = .ok () d.incr.state := by
  simp [DeserializeIterator.incr, h, Result.state]

/-- One call of `SortMerger::next` on a non-empty heap of cursors none of which has ended:
the heap is a rearrangement of `init ++ [back]` where `back` shows a smallest current value;
the call returns that value, and the merger then holds the cursors `init` together with the
advanced `back`, unless that has ended, again as a heap. -/
theorem sort_next_step (ds : List DeserializeIterator) (hne : ds ≠ [])
    (hl : ∀ d ∈ ds, d.isEnd_ = false) (hh : IsMinHeap ds) :
    ∃ init back back1 ds1,
      (init ++ [back]).Perm ds ∧ (∀ d ∈ ds, back.deref ≤ d.deref)
        ∧ back.incr = .ok () back1
        ∧ SortMerger.next { deserializers_ := ds } = .ok back.deref { deserializers_ := ds1 }
        ∧ ds1.Perm (if back1.isEnd = true then init else init ++ [back1])
        ∧ IsMinHeap ds1 := by
  obtain ⟨p1, p2, p3, p4⟩ :=
    pop_heap_spec DeserializeIterator.deref DeserializerCompare compare_eq ds hne hh
  have hpos : 0 < ds.length := List.length_pos.mpr hne
  rcases List.eq_nil_or_concat (std_pop_heap DeserializerCompare ds) with hnil | ⟨init, back, hv⟩
  · rw [hnil] at p2; simp at p2; omega
  rw [List.concat_eq_append] at hv
  rw [hv] at p1 p2 p3 p4
  have hilen : init.length = ds.length - 1 := by simp at p2; omega
  have htop : ds[0]? = some back := by
    rw [← p3, ← hilen]; simp
  have hback : back ∈ ds := List.mem_iff_getElem?.mpr ⟨0, htop⟩
  have hheap : HeapFrom DeserializeIterator.deref 0 init.length init := by
    rw [hilen]
    apply heapFrom_congr _ _ _ _ _ ?_ p4
    intro m hm
    rw [List.getElem?_append_left (by omega)]
  have hmin : ∀ d ∈ ds, back.deref ≤ d.deref := by
    intro d hd
    obtain ⟨c, hc⟩ := List.mem_iff_getElem?.mp hd
    have hcl : c < ds.length := (List.getElem?_eq_some_iff.mp hc).1
    exact heap_root_le DeserializeIterator.deref ds ds.length hh (le_refl _) c back d hcl htop hc
  have hhas : SortMerger.hasNext { deserializers_ := ds } = true := by
    cases ds with
    | nil => exact absurd rfl hne
    | cons _ _ => rfl
  have h1 := incr_of_not_ended back (hl back hback)
  by_cases hend : back.incr.state.isEnd = true
  · refine ⟨init, back, back.incr.state, init, p1, hmin, h1, ?_, ?_, hheap⟩
    · rw [SortMerger.next, hhas]
      simp only [Bool.not_true, Bool.false_eq_true, if_false, hv, List.getLast?_concat]
      rw [h1]
      simp only [hend, if_true, List.dropLast_concat]
    · rw [if_pos hend]
  · obtain ⟨q1, q2⟩ := push_heap_spec DeserializeIterator.deref DeserializerCompare compare_eq
      (init ++ [back.incr.state]) (by
        have : (init ++ [back.incr.state]).length - 1 = init.length := by simp
        rw [this]
        apply heapFrom_congr _ _ _ _ _ ?_ hheap
        intro m hm
        rw [List.getElem?_append_left hm])
    refine ⟨init, back, back.incr.state,
      std_push_heap DeserializerCompare (init ++ [back.incr.state]), p1, hmin, h1, ?_, ?_, ?_⟩
    · rw [SortMerger.next, hhas]
      simp only [Bool.not_true, Bool.false_eq_true, if_false, hv, List.getLast?_concat]
      rw [h1]
      simp only [hend, if_false, List.dropLast_concat]
      rfl
    · rw [if_neg hend]; exact q2
    · unfold IsMinHeap
      rw [q2.length_eq]
      exact q1

/-- The invariant of `SortMerger` is kept by every call of `next()` that returns. -/
theorem sort_next_inv (ds : List DeserializeIterator)
    (hl : ∀ d ∈ ds, d.isEnd_ = false) (hh : IsMinHeap ds) (v : CInt) (m1 : SortMerger)
    (h : SortMerger.next { deserializers_ := ds } = .ok v m1) :
    (∀ d ∈ m1.deserializers_, d.isEnd_ = false) ∧ IsMinHeap m1.deserializers_ := by
  by_cases hne : ds = []
  · subst hne
    simp [SortMerger.next, SortMerger.hasNext] at h
  · obtain ⟨init, back, back1, ds1, e1, _, e3, e4, e5, e6⟩ := sort_next_step ds hne hl hh
    rw [e4] at h
    cases h
    refine ⟨?_, e6⟩
    intro d hd
    have hd := e5.mem_iff.mp hd
    have hin : ∀ x ∈ init, x.isEnd_ = false :=
      fun x hx => hl x (e1.mem_iff.mp (by simp [hx]))
    by_cases hend : back1.isEnd = true
    · rw [if_pos hend] at hd
      exact hin d hd
    · rw [if_neg hend] at hd
      rcases List.mem_append.mp hd with hd | hd
      · exact hin d hd
      · simp only [List.mem_singleton] at hd
        subst hd
        simpa [DeserializeIterator.isEnd] using hend

theorem sort_ctor_inv (ds0 : List DeserializeIterator) (h0 : ∀ d ∈ ds0, d.isEnd_ = false) :
    (∀ d ∈ (SortMerger.ctor ds0).deserializers_, d.isEnd_ = false)
      ∧ IsMinHeap (SortMerger.ctor ds0).deserializers_ := by
  obtain ⟨m1, m2⟩ := make_heap_spec DeserializeIterator.deref DeserializerCompare compare_eq ds0
  refine ⟨fun d hd => h0 d (m2.mem_iff.mp hd), ?_⟩
  unfold IsMinHeap
  simp only [SortMerger.ctor]
  rw [m2.length_eq]
  exact m1

theorem sort_nexts_inv (k : Nat) :
    ∀ m m1 : SortMerger, (∀ d ∈ m.deserializers_, d.isEnd_ = false) →
      IsMinHeap m.deserializers_ → SortMerger.nexts k m = some m1 →
      (∀ d ∈ m1.deserializers_, d.isEnd_ = false) ∧ IsMinHeap m1.deserializers_ := by
  induction k with
  | zero =>
    intro m m1 hl hh h
    simp only [SortMerger.nexts] at h
    cases h
    exact ⟨hl, hh⟩
  | succ k ih =>
    intro m m1 hl hh h
    simp only [SortMerger.nexts] at h
    cases hn : m.next with
    | thrown c m2 => rw [hn] at h; cases h
    | ok v m2 =>
      rw [hn] at h
      obtain ⟨i1, i2⟩ := sort_next_inv m.deserializers_ hl hh v m2 hn
      exact ih m2 m1 i1 i2 h

/-- C18: if no cursor passed to the constructor of `SortMerger` is in the end state, then
after construction (`k = 0`) and after any number `k` of calls of `next()` that returned, the
vector `deserializers_` holds no cursor in the end state and is a binary min-heap on the
current values: for every index `c > 0` the cursor at the parent index `(c - 1) / 2` has a
current value at most that of the cursor at `c`, that is `DeserializerCompare` does not put
the parent before the child. -/
theorem C18_sort_merger_invariant (ds0 : List DeserializeIterator) (k : Nat) (m : SortMerger)
    (h0 : ∀ d ∈ ds0, d.isEnd = false)
    (hk : SortMerger.nexts k (SortMerger.ctor ds0) = some m) :
    (∀ d ∈ m.deserializers_, d.isEnd = false)
      ∧ (∀ c a b, 0 < c → m.deserializers_[(c - 1) / 2]? = some a →
          m.deserializers_[c]? = some b →
          a.deref ≤ b.deref ∧ DeserializerCompare a b = false) := by
  obtain ⟨c1, c2⟩ := sort_ctor_inv ds0 h0
  obtain ⟨i1, i2⟩ := sort_nexts_inv k _ m c1 c2 hk
  refine ⟨i1, ?_⟩
  intro c a b hc ha hb
  have hcl : c < m.deserializers_.length := (List.getElem?_eq_some_iff.mp hb).1
  have hle := i2 c a b hc hcl (Nat.zero_le _) ha hb
  refine ⟨hle, ?_⟩
  rw [compare_eq]
  exact decide_eq_false (not_lt.mpr hle)

/-- Witness for C18 on the cursors of the files `3 5`, `1 4`, `2` after two calls of
`next()`. -/
theorem C18_sort_merger_invariant_witness :
    ∃ m, SortMerger.nexts 2 (SortMerger.ctor sampleCursors) = some m
      ∧ (∀ d ∈ sampleCursors, d.isEnd = false)
      ∧ (∀ d ∈ m.deserializers_, d.isEnd = false)
      ∧ (∀ c a b, 0 < c → m.deserializers_[(c - 1) / 2]? = some a →
          m.deserializers_[c]? = some b →
          a.deref ≤ b.deref ∧ DeserializerCompare a b = false) :=
  ⟨(SortMerger.nexts 2 (SortMerger.ctor sampleCursors)).get (by decide),
    (Option.some_get _).symm, by decide,
    C18_sort_merger_invariant sampleCursors 2 _ (by decide) (Option.some_get _).symm⟩

/-- C12: take a `SortMerger` constructed from cursors none of which is in the end state,
after any number `k` of calls of `next()` that returned, and with `hasNext()` true.  Its
cursors are some `back` and the others `init`, where the current value of `back` is at most
the current value of every held cursor; `next()` returns that value; afterwards the merger
holds the cursors `init` unchanged and the advanced `back`, the latter iff it has not
thereby reached the end state. -/
theorem C12_sort_next_returns_min (ds0 : List DeserializeIterator) (k : Nat) (m : SortMerger)
    (h0 : ∀ d ∈ ds0, d.isEnd = false)
    (hk : SortMerger.nexts k (SortMerger.ctor ds0) = some m) (hn : m.hasNext = true) :
    ∃ init back back1 m1,
      (init ++ [back]).Perm m.deserializers_
        ∧ (∀ d ∈ m.deserializers_, back.deref ≤ d.deref)
        ∧ back.incr = .ok () back1
        ∧ m.next = .ok back.deref m1
        ∧ m1.deserializers_.Perm (if back1.isEnd = true then init else init ++ [back1]) := by
  obtain ⟨c1, c2⟩ := sort_ctor_inv ds0 h0
  obtain ⟨i1, i2⟩ := sort_nexts_inv k _ m c1 c2 hk
  have hne : m.deserializers_ ≠ [] := by
    intro e
    simp [SortMerger.hasNext, e] at hn
  obtain ⟨init, back, back1, ds1, e1, e2, e3, e4, e5, _⟩ :=
    sort_next_step m.deserializers_ hne i1 i2
  exact ⟨init, back, back1, { deserializers_ := ds1 }, e1, e2, e3, e4, e5⟩

/-- Witness for C12 on the cursors of the files `3 5`, `1 4`, `2` after one call of
`next()`. -/
theorem C12_sort_next_returns_min_witness :
    ∃ m, SortMerger.nexts 1 (SortMerger.ctor sampleCursors) = some m
      ∧ (∀ d ∈ sampleCursors, d.isEnd = false) ∧ m.hasNext = true
      ∧ ∃ init back back1 m1,
        (init ++ [back]).Perm m.deserializers_
          ∧ (∀ d ∈ m.deserializers_, back.deref ≤ d.deref)
          ∧ back.incr = .ok () back1
          ∧ m.next = .ok back.deref m1
          ∧ m1.deserializers_.Perm (if back1.isEnd = true then init else init ++ [back1]) :=
  ⟨(SortMerger.nexts 1 (SortMerger.ctor sampleCursors)).get (by decide),
    (Option.some_get _).symm, by decide, by decide,
    C12_sort_next_returns_min sampleCursors 1 _ (by decide) (Option.some_get _).symm
      (by decide)⟩

/-- The values `next()` returns when a `SortMerger` on the files `3 5`, `1 4`, `2` is
drained, and the current values it holds after each call. -/
theorem sample_sort_merger_trace :
    (SortMerger.ctor sampleCursors).deserializers_.map DeserializeIterator.deref
        = [1, 3, 2].map CInt.ofInt
      ∧ (SortMerger.nexts 1 (SortMerger.ctor sampleCursors)).map
          (fun m => m.deserializers_.map DeserializeIterator.deref)
        = some ([2, 3, 4].map CInt.ofInt)
      ∧ (SortMerger.nexts 2 (SortMerger.ctor sampleCursors)).map
          (fun m => m.deserializers_.map DeserializeIterator.deref)
        = some ([3, 4].map CInt.ofInt)
      ∧ (mergeLoop SortMerger.cls 5 (SortMerger.ctor sampleCursors) []).map
          (fun r => r.state.2)
        = some ([1, 2, 3, 4, 5].map CInt.ofInt) := by
  refine ⟨by decide, by decide, by decide, by decide⟩

/-! ## Merging as interleaving -/

theorem Interleaving.of_perm {α : Type} {fs gs : List (List α)} {out : List α}
    (h : Interleaving fs out) (hp : fs.Perm gs) : Interleaving gs out := by
  cases h with
  | done =>
    have : gs = [] := List.Perm.nil_eq hp |>.symm
    subst this
    exact Interleaving.done
  | skip p r => exact Interleaving.skip (hp.symm.trans p) r
  | take p r => exact Interleaving.take (hp.symm.trans p) r

theorem interleaving_prepend {α : Type} (f : List α) (rest : List (List α)) (out : List α)
    (h : Interleaving rest out) : Interleaving (f :: rest) (f ++ out) := by
  induction f with
  | nil => exact Interleaving.skip (List.Perm.refl _) h
  | cons x t ih => exact Interleaving.take (List.Perm.refl _) ih

theorem interleaving_flatten {α : Type} (fs : List (List α)) : Interleaving fs fs.flatten := by
  induction fs with
  | nil => exact Interleaving.done
  | cons f rest ih => exact interleaving_prepend f rest _ ih

/-- In an interleaving every sequence appears as a subsequence: its values occur in the
output in the order they have in the sequence. -/
theorem interleaving_sublist {α : Type} {fs : List (List α)} {out : List α}
    (h : Interleaving fs out) : ∀ f ∈ fs, f.Sublist out := by
  induction h with
  | done => intro f hf; simp at hf
  | skip p _ ih =>
    intro f hf
    rcases List.mem_cons.mp (p.mem_iff.mp hf) with e | hr
    · subst e; exact List.nil_sublist _
    · exact ih f hr
  | take p _ ih =>
    intro f hf
    rcases List.mem_cons.mp (p.mem_iff.mp hf) with e | hr
    · subst e
      exact (ih _ (List.mem_cons_self _ _)).cons₂ _
    · exact (ih f (List.mem_cons_of_mem _ hr)).cons _

/-- An interleaving uses every value of every sequence exactly once. -/
theorem interleaving_perm {α : Type} {fs : List (List α)} {out : List α}
    (h : Interleaving fs out) : out.Perm fs.flatten := by
  induction h with
  | done => exact List.Perm.refl _
  | skip p _ ih =>
    have := p.flatten
    simp only [List.flatten_cons, List.nil_append] at this
    exact ih.trans this.symm
  | take p _ ih =>
    have := p.flatten
    simp only [List.flatten_cons, List.cons_append] at this
    simp only [List.flatten_cons] at ih
    exact (ih.cons _).trans this.symm

/-- Draining a `SortMerger` that is a heap of live cursors, whether or not their values are
sorted: the loop ends normally with no cursor left, having written an interleaving of the
cursors' pending values. -/
theorem sort_mergeLoop_interleaving (fuel : Nat) :
    ∀ (ds : List DeserializeIterator) (out : List CInt),
      (∀ d ∈ ds, d.Live) → IsMinHeap ds →
      ((ds.map DeserializeIterator.pending).flatten).length ≤ fuel →
      ∃ L, mergeLoop SortMerger.cls fuel { deserializers_ := ds } out
          = some (.ok () ({ deserializers_ := [] }, out ++ L)) ∧
        Interleaving (ds.map DeserializeIterator.pending) L := by
  induction fuel with
  | zero =>
    intro ds out _ _ hlen
    have hnil : ds = [] := by
      cases ds with
      | nil => rfl
      | cons d rest =>
        have := pending_length_pos d
        simp only [List.map_cons, List.flatten_cons, List.length_append] at hlen
        omega
    subst hnil
    exact ⟨[], by simp [mergeLoop, SortMerger.cls, SortMerger.hasNext], Interleaving.done⟩
  | succ fuel ih =>
    intro ds out hl hh hlen
    by_cases hnil : ds = []
    · subst hnil
      exact ⟨[], by simp [mergeLoop, SortMerger.cls, SortMerger.hasNext], Interleaving.done⟩
    · obtain ⟨init, back, back1, ds1, e1, _, e3, e4, e5, e6⟩ :=
        sort_next_step ds hnil (fun d hd => (hl d hd).1) hh
      have hback : back ∈ ds := e1.mem_iff.mp (by simp)
      have hinit : ∀ d ∈ init, d.Live := fun d hd => hl d (e1.mem_iff.mp (by simp [hd]))
      have hhas : SortMerger.cls.hasNext { deserializers_ := ds } = true := by
        cases ds with
        | nil => exact absurd rfl hnil
        | cons _ _ => rfl
      have hnext : SortMerger.cls.next { deserializers_ := ds }
          = .ok back.deref { deserializers_ := ds1 } := e4
      have hpm : (ds.map DeserializeIterator.pending).Perm
          (back.pending :: init.map DeserializeIterator.pending) := by
        have := e1.symm.map DeserializeIterator.pending
        simp only [List.map_append, List.map_cons, List.map_nil] at this
        exact this.trans (List.perm_append_comm)
      have hlen2 : (back.pending :: init.map DeserializeIterator.pending).flatten.length
          ≤ fuel + 1 := by
        rw [← hpm.flatten.length_eq]; exact hlen
      simp only [List.flatten_cons, List.length_append] at hlen2
      obtain ⟨d1, h1, h2⟩ := incr_of_live back (hl back hback)
      rw [e3] at h1
      cases h1
      rcases h2 with ⟨h2, h3⟩ | ⟨h2, h3⟩
      · have hend : back1.isEnd = true := h2
        rw [if_pos hend] at e5
        have hpb := congrArg List.length h3
        simp only [List.length_cons, List.length_nil] at hpb
        obtain ⟨L, r1, r2⟩ := ih ds1 (out ++ [back.deref])
          (fun d hd => hinit d (e5.mem_iff.mp hd)) e6 (by
            rw [(e5.map DeserializeIterator.pending).flatten.length_eq]
            omega)
        refine ⟨back.deref :: L, ?_, ?_⟩
        · simp only [mergeLoop]
          rw [hhas, if_pos rfl, hnext]
          simp only []
          rw [r1]; simp
        · refine @Interleaving.take _ _ (init.map DeserializeIterator.pending) back.deref [] _ ?_ ?_
          · rw [show [back.deref] = back.pending from h3.symm]; exact hpm
          · exact Interleaving.skip (List.Perm.refl _)
              (r2.of_perm (e5.map DeserializeIterator.pending))
      · have hend : ¬ back1.isEnd = true := by
          simp [DeserializeIterator.isEnd, h2.1]
        rw [if_neg hend] at e5
        have hpb := congrArg List.length h3
        simp only [List.length_cons] at hpb
        have hp1 : (ds1.map DeserializeIterator.pending).Perm
            (back1.pending :: init.map DeserializeIterator.pending) := by
          have := e5.map DeserializeIterator.pending
          simp only [List.map_append, List.map_cons, List.map_nil] at this
          exact this.trans (List.perm_append_comm)
        obtain ⟨L, r1, r2⟩ := ih ds1 (out ++ [back.deref])
          (by
            intro d hd
            rcases List.mem_append.mp (e5.mem_iff.mp hd) with hd | hd
            · exact hinit d hd
            · simp only [List.mem_singleton] at hd
              subst hd; exact h2)
          e6 (by
            rw [hp1.flatten.length_eq]
            simp only [List.flatten_cons, List.length_append]
            omega)
        refine ⟨back.deref :: L, ?_, ?_⟩
        · simp only [mergeLoop]
          rw [hhas, if_pos rfl, hnext]
          simp only []
          rw [r1]; simp
        · refine @Interleaving.take _ _ (init.map DeserializeIterator.pending) back.deref
            back1.pending _ ?_ (r2.of_perm hp1)
          rw [show back.deref :: back1.pending = back.pending from h3.symm]
          exact hpm

/-- C16: for every list of non-empty spill files, sorted or not, draining a `SortMerger` on
them, and likewise a `ReverseMerger`, ends normally with `hasNext()` false, and the sequence
produced is an interleaving of the files: it uses every value of every file once, and the
values of each file occur in it in the order they have in the file. -/
theorem C16_merge_keeps_file_order (files : List (List CInt)) (fuel : Nat)
    (hne : ∀ f ∈ files, f ≠ []) (hfuel : files.flatten.length ≤ fuel) :
    (∃ m out, mergeLoop SortMerger.cls fuel (SortMerger.ctor (files.map chunkCursor)) []
          = some (.ok () (m, out))
        ∧ SortMerger.hasNext m = false ∧ Interleaving files out
        ∧ (∀ f ∈ files, f.Sublist out) ∧ out.Perm files.flatten)
      ∧ (∃ m out, mergeLoop ReverseMerger.cls fuel
            (ReverseMerger.ctor (files.map chunkCursor)) [] = some (.ok () (m, out))
        ∧ ReverseMerger.hasNext m = false ∧ Interleaving files out
        ∧ (∀ f ∈ files, f.Sublist out) ∧ out.Perm files.flatten) := by
  have hpend := map_pending_chunkCursor files hne
  have hlive : ∀ d ∈ files.map chunkCursor, d.Live := by
    intro d hd
    obtain ⟨c, hc, rfl⟩ := List.mem_map.mp hd
    exact (chunkCursor_live c (hne c hc)).1
  constructor
  · obtain ⟨m1, m2⟩ := make_heap_spec DeserializeIterator.deref DeserializerCompare compare_eq
      (files.map chunkCursor)
    have hp : ((std_make_heap DeserializerCompare (files.map chunkCursor)).map
        DeserializeIterator.pending).Perm files := by
      have := m2.map DeserializeIterator.pending
      rwa [hpend] at this
    obtain ⟨L, r1, r2⟩ := sort_mergeLoop_interleaving fuel
      (std_make_heap DeserializerCompare (files.map chunkCursor)) []
      (fun d hd => hlive d (m2.mem_iff.mp hd))
      (by unfold IsMinHeap; rw [m2.length_eq]; exact m1)
      (by rw [hp.flatten.length_eq]; exact hfuel)
    have hi : Interleaving files L := r2.of_perm hp
    rw [List.nil_append] at r1
    exact ⟨{ deserializers_ := [] }, L, r1, rfl, hi, interleaving_sublist hi,
      interleaving_perm hi⟩
  · have h := reverse_mergeLoop fuel (files.map chunkCursor) [] hlive
      (by rw [hpend]; exact hfuel)
    rw [hpend, List.nil_append] at h
    have hi : Interleaving files files.reverse.flatten :=
      (interleaving_flatten files.reverse).of_perm (List.reverse_perm files)
    exact ⟨{ deserializers_ := [] }, _, h, rfl, hi, interleaving_sublist hi,
      interleaving_perm hi⟩

/-- Witness for C16 on the unsorted files `5 3`, `4 1`, `2`. -/
theorem C16_merge_keeps_file_order_witness :
    (∀ f ∈ [[5, 3], [4, 1], [2]].map (List.map CInt.ofInt), f ≠ [])
      ∧ ([[5, 3], [4, 1], [2]].map (List.map CInt.ofInt)).flatten.length ≤ 5
      ∧ ((∃ m out, mergeLoop SortMerger.cls 5
            (SortMerger.ctor (([[5, 3], [4, 1], [2]].map (List.map CInt.ofInt)).map chunkCursor)) []
            = some (.ok () (m, out))
          ∧ SortMerger.hasNext m = false
          ∧ Interleaving ([[5, 3], [4, 1], [2]].map (List.map CInt.ofInt)) out
          ∧ (∀ f ∈ [[5, 3], [4, 1], [2]].map (List.map CInt.ofInt), f.Sublist out)
          ∧ out.Perm ([[5, 3], [4, 1], [2]].map (List.map CInt.ofInt)).flatten)
        ∧ (∃ m out, mergeLoop ReverseMerger.cls 5
            (ReverseMerger.ctor (([[5, 3], [4, 1], [2]].map (List.map CInt.ofInt)).map chunkCursor)) []
            = some (.ok () (m, out))
          ∧ ReverseMerger.hasNext m = false
          ∧ Interleaving ([[5, 3], [4, 1], [2]].map (List.map CInt.ofInt)) out
          ∧ (∀ f ∈ [[5, 3], [4, 1], [2]].map (List.map CInt.ofInt), f.Sublist out)
          ∧ out.Perm ([[5, 3], [4, 1], [2]].map (List.map CInt.ofInt)).flatten)) :=
  ⟨by decide, by decide,
    C16_merge_keeps_file_order ([[5, 3], [4, 1], [2]].map (List.map CInt.ofInt)) 5
      (by decide) (by decide)⟩

/-- A `SortMerger` drained on the unsorted files `5 3`, `4 1`, `2` produces `2 4 1 5 3`: not
sorted, but with `5` before `3` and `4` before `1`, as in the files. -/
theorem sample_unsorted_merge :
    (mergeLoop SortMerger.cls 5
        (SortMerger.ctor (([[5, 3], [4, 1], [2]].map (List.map CInt.ofInt)).map chunkCursor)) []).map
      (fun r => r.state.2) = some ([2, 4, 1, 5, 3].map CInt.ofInt) := by
  decide

end ExtSort
